import Mathlib

/-!
Verification development for an AVL-tree container (`avltree.hpp`) and a
chained hash map (`hashmap`) whose buckets are AVL trees.  The C++ sources are
shallowly embedded: nodes become an inductive tree carrying the two cached
subtree heights (`_left_height`, `_right_height`), pointer relinking becomes
functional reconstruction, machine `int` becomes `Int`, exceptions become
`Except`, and `V*` payload pointers in the map become `Nat` allocation ids.
Keys are fixed to `Int` (the C++ template is instantiated with totally
ordered keys; the hash additionally truncates keys to `int`).
-/

namespace DS

/-- Error taxonomy of `exceptions.hpp` for the tree. -/
inductive TErr where
  | keyNotFound
  | keyAlreadyExists
  | invalidArg
  | nullArg
deriving DecidableEq, Repr

/-- Iterator error taxonomy of `exceptions.hpp`. -/
inductive IterErr where
  | pastEnd
  | atRoot
deriving DecidableEq, Repr

/-- A tree node: children, key, data, and the two cached heights
(`_left_height`, `_right_height`) exactly as stored in `Node`. -/
inductive NodeT (V : Type) : Type where
  | nil : NodeT V
  | node (l : NodeT V) (k : Int) (v : V) (lh rh : Int) (r : NodeT V) : NodeT V
deriving DecidableEq, Repr

variable {V : Type}

/-- Height as read through a possibly-null pointer: `Node::getHeight` returns
`max(_left_height, _right_height) + 1`, and `updateLeftHeight` /
`updateRightHeight` use `0` for a null child. -/
def cachedHeight : NodeT V → Int
  | .nil => 0
  | .node _ _ _ lh rh _ => max lh rh + 1

/-- In-order key/value listing of a subtree (the order of `inorderOutputAux`
and of `extractTreeDataInOrderAux`). -/
def inorder : NodeT V → List (Int × V)
  | .nil => []
  | .node l k v _ _ r => inorder l ++ (k, v) :: inorder r

/-- Keys of a subtree in in-order. -/
def keysOf (t : NodeT V) : List Int := (inorder t).map Prod.fst

/-- Number of live nodes in a subtree. -/
def nodesCount : NodeT V → Nat
  | .nil => 0
  | .node l _ _ _ _ r => nodesCount l + nodesCount r + 1

/-- Recomputed (true) height of a subtree, ignoring the cached fields. -/
def trueHeight : NodeT V → Nat
  | .nil => 0
  | .node l _ _ _ _ r => max (trueHeight l) (trueHeight r) + 1

/-- Checks that every node's true subtree heights differ by at most one. -/
def trueBalancedB : NodeT V → Bool
  | .nil => true
  | .node l _ _ _ _ r =>
      (((trueHeight l : Int) - (trueHeight r : Int)).natAbs ≤ 1 : Bool)
        && trueBalancedB l && trueBalancedB r

/-- Checks that every node's cached heights equal the recomputed true heights
of its subtrees. -/
def heightsAccurateB : NodeT V → Bool
  | .nil => true
  | .node l _ _ lh rh r =>
      (lh = (trueHeight l : Int) : Bool) && (rh = (trueHeight r : Int) : Bool)
        && heightsAccurateB l && heightsAccurateB r

/-- `AVLTree::rotateLL(B)`: `A = B->left`, `B->setLeft(A->right)` (refreshing
`B->_left_height`), `A->setRight(B)` (refreshing `A->_right_height`); the
parent/root relink is performed by the caller of the functional result. -/
def rotateLL : NodeT V → NodeT V
  | .node (.node al ak av alh _arh ar) k v _lh rh r =>
      let b := NodeT.node ar k v (cachedHeight ar) rh r
      NodeT.node al ak av alh (cachedHeight b) b
  | t => t

/-- `AVLTree::rotateRR(A)`: `B = A->right`, `A->setRight(B->left)` (refreshing
`A->_right_height`), `B->setLeft(A)` (refreshing `B->_left_height`). -/
def rotateRR : NodeT V → NodeT V
  | .node l k v lh _rh (.node bl bk bv _blh brh br) =>
      let a := NodeT.node l k v lh (cachedHeight bl) bl
      NodeT.node a bk bv (cachedHeight a) brh br
  | t => t

/-- `AVLTree::rotateLR(C)`: `rotateRR(C->getLeft())` relinks the rotated
subtree into `C` via `C->setLeft` (refreshing `C->_left_height`), then
`rotateLL(C)`. -/
def rotateLR : NodeT V → NodeT V
  | .node l k v _lh rh r =>
      let l2 := rotateRR l
      rotateLL (NodeT.node l2 k v (cachedHeight l2) rh r)
  | t => t

/-- `AVLTree::rotateRL(C)`: `rotateLL(C->getRight())` relinks into `C` via
`C->setRight` (refreshing `C->_right_height`), then `rotateRR(C)`. -/
def rotateRL : NodeT V → NodeT V
  | .node l k v lh _rh r =>
      let r2 := rotateLL r
      rotateRR (NodeT.node l k v lh (cachedHeight r2) r2)
  | t => t

/-- `AVLTree::rotate(node)`: dispatch on the cached balance factor
(`_left_height - _right_height`).  With balance `+2`: left-child balance
`≥ 0` gives LL, `= -1` gives LR, anything else does nothing.  With `-2`:
right-child balance `= 1` gives RL, `≤ 0` gives RR.  The boolean reports
whether a rotation happened (in C++ a rotation relinks the new subtree root
into the parent through `setLeft`/`setRight`, refreshing the parent's cached
height for that side). -/
def rotateStep (t : NodeT V) : NodeT V × Bool :=
  match t with
  | .nil => (.nil, false)
  | .node l k v lh rh r =>
    if lh - rh = 2 then
      match l with
      | .nil => (.node l k v lh rh r, false)
      | .node _ _ _ llh lrh _ =>
        if llh - lrh ≥ 0 then (rotateLL (.node l k v lh rh r), true)
        else if llh - lrh = -1 then (rotateLR (.node l k v lh rh r), true)
        else (.node l k v lh rh r, false)
    else if lh - rh = -2 then
      match r with
      | .nil => (.node l k v lh rh r, false)
      | .node _ _ _ rlh rrh _ =>
        if rlh - rrh = 1 then (rotateRL (.node l k v lh rh r), true)
        else if rlh - rrh ≤ 0 then (rotateRR (.node l k v lh rh r), true)
        else (.node l k v lh rh r, false)
    else (.node l k v lh rh r, false)

/-- `AVLTree::recursiveFind`: standard BST descent; returns the subtree rooted
at the node holding the key, or `none`. -/
def findNode : NodeT V → Int → Option (NodeT V)
  | .nil, _ => none
  | .node l ck cv lh rh r, k =>
      if ck > k then findNode l k
      else if ck < k then findNode r k
      else some (.node l ck cv lh rh r)

/-- `AVLTree::recursiveInsert`.  Cases follow the source: at a leaf, attach on
the side given by the comparison; at a full node recurse on that side — note
that after recursing into the LEFT child the source calls
`updateRightHeight()` (avltree.hpp line 478), so the left cached height is
refreshed only if the child's trailing `rotate` relinked a new subtree root
into this node via `setLeft` (which refreshes it); at a one-child node the
missing side is filled directly when the key belongs there.  Every frame ends
with `rotate(current)`.  The boolean tells the caller whether that final
rotation replaced this subtree's root. -/
def insRec : NodeT V → Int → V → NodeT V × Bool
  | .nil, k, v => (.node .nil k v 0 0 .nil, false)
  | .node .nil ck cv lh rh .nil, k, v =>
      -- isLeaf: new node becomes the right son if current < to_insert
      if ck < k then
        let nl : NodeT V := .node .nil k v 0 0 .nil
        rotateStep (.node .nil ck cv lh (cachedHeight nl) nl)
      else
        let nl : NodeT V := .node .nil k v 0 0 .nil
        rotateStep (.node nl ck cv (cachedHeight nl) rh .nil)
  | .node (.node a b c d e f) ck cv lh _rh (.node p q s u w x), k, v =>
      -- isFull
      if ck < k then
        let pr := insRec (.node p q s u w x) k v
        rotateStep (.node (.node a b c d e f) ck cv lh (cachedHeight pr.1) pr.1)
      else
        let pr := insRec (.node a b c d e f) k v
        -- updateRightHeight() is called here in the source even though the
        -- walk went left; the left cached height is refreshed only by a
        -- child rotation's relink through setLeft.
        let newlh := if pr.2 then cachedHeight pr.1 else lh
        rotateStep (.node pr.1 ck cv newlh (cachedHeight (.node p q s u w x)) (.node p q s u w x))
  | .node (.node a b c d e f) ck cv lh _rh .nil, k, v =>
      -- only a left son: fill the empty right slot when the key belongs there
      if k > ck then
        let nl : NodeT V := .node .nil k v 0 0 .nil
        rotateStep (.node (.node a b c d e f) ck cv lh (cachedHeight nl) nl)
      else
        let pr := insRec (.node a b c d e f) k v
        rotateStep (.node pr.1 ck cv (cachedHeight pr.1) (cachedHeight (NodeT.nil : NodeT V)) .nil)
  | .node .nil ck cv _lh rh (.node p q s u w x), k, v =>
      -- only a right son
      if k < ck then
        let nl : NodeT V := .node .nil k v 0 0 .nil
        rotateStep (.node nl ck cv (cachedHeight nl) rh (.node p q s u w x))
      else
        let pr := insRec (.node p q s u w x) k v
        rotateStep (.node .nil ck cv (cachedHeight (NodeT.nil : NodeT V)) (cachedHeight pr.1) pr.1)

/-- Key/value of the leftmost node of a subtree (the in-order successor
search loop in `recursiveDelete`'s two-children case). -/
def leftmostKV : NodeT V → Option (Int × V)
  | .nil => none
  | .node .nil k v _ _ _ => some (k, v)
  | .node (.node a b c d e f) _ _ _ _ _ => leftmostKV (.node a b c d e f)

/-- Relabel the leftmost node of a subtree with the given key/value
(the effect of `Node::swap` on the successor's node). -/
def replaceMin : NodeT V → Int → V → NodeT V
  | .nil, _, _ => .nil
  | .node .nil _ _ lh rh r, nk, nv => .node .nil nk nv lh rh r
  | .node (.node a b c d e f) k v lh rh r, nk, nv =>
      .node (replaceMin (.node a b c d e f) nk nv) k v lh rh r

theorem nodesCount_replaceMin (t : NodeT V) (nk : Int) (nv : V) :
    nodesCount (replaceMin t nk nv) = nodesCount t := by
  induction t with
  | nil => rfl
  | node l k v lh rh r ihl ihr =>
    cases l with
    | nil => rfl
    | node a b c d e f => simp [replaceMin, nodesCount, ihl]

/-- `AVLTree::recursiveDelete` (key assumed present).  Leaf: detach and free
(early return, no rotation at the deleted node).  Two children: swap key and
data with the in-order successor (leftmost of the right subtree), then delete
the original key from the right subtree, refresh the right cached height, and
rotate.  One child: splice the sole child into the parent slot (early return).
On the search path the traversed side's cached height is refreshed (either by
the explicit `updateLeftHeight`/`updateRightHeight` call or, when the child
itself was removed, by `disconnectFromParent`/`attachParentAndSon` setting
that side) and the frame ends with `rotate(current)`. -/
def delRec : NodeT V → Int → NodeT V
  | .nil, _ => .nil
  | .node l ck cv lh rh r, k =>
    if ck = k then
      match l, r with
      | .nil, .nil => .nil
      | .node a b c d e f, .node p q s u w x =>
          let sc := (leftmostKV (.node p q s u w x)).getD (ck, cv)
          let r1 := replaceMin (.node p q s u w x) ck cv
          let r2 := delRec r1 k
          (rotateStep (.node (.node a b c d e f) sc.1 sc.2 lh (cachedHeight r2) r2)).1
      | .node a b c d e f, .nil => .node a b c d e f
      | .nil, .node p q s u w x => .node p q s u w x
    else if ck < k then
      let r2 := delRec r k
      (rotateStep (.node l ck cv lh (cachedHeight r2) r2)).1
    else
      let l2 := delRec l k
      (rotateStep (.node l2 ck cv (cachedHeight l2) rh r)).1
termination_by t _ => nodesCount t
decreasing_by
  · simp only [nodesCount, nodesCount_replaceMin]; omega
  · simp only [nodesCount]; omega
  · simp only [nodesCount]; omega

/-- The `AVLTree` object: owning root pointer and the live element count
(the cached `minimal` pointer is a derived value recomputed by a leftmost
walk after every mutation; no claim concerns it, so it is not carried). -/
structure TreeS (V : Type) : Type where
  root : NodeT V
  size : Int
deriving DecidableEq, Repr

/-- The empty tree produced by the `AVLTree` constructor. -/
def emptyTree : TreeS V := ⟨.nil, 0⟩

/-- `AVLTree::getSize`. -/
def getSize (t : TreeS V) : Int := t.size

/-- `AVLTree::Empty`: `root == NULL || getSize() == 0`. -/
def treeEmpty (t : TreeS V) : Bool :=
  match t.root with
  | .nil => true
  | _ => decide (t.size = 0)

/-- `AVLTree::Find`: returns the located node or signals `KeyNotFound`. -/
def treeFind (t : TreeS V) (k : Int) : Except TErr (NodeT V) :=
  match findNode t.root k with
  | none => .error .keyNotFound
  | some n => .ok n

/-- `AVLTree::Insert`, state-threaded: on the error path the tree component is
returned exactly as the source leaves it (the duplicate check runs before any
link is rewired).  An empty tree takes the direct `root = new Node` path. -/
def treeInsertOp (t : TreeS V) (k : Int) (v : V) : Except TErr Unit × TreeS V :=
  if treeEmpty t then
    (.ok (), ⟨.node .nil k v 0 0 .nil, t.size + 1⟩)
  else
    match findNode t.root k with
    | some _ => (.error .keyAlreadyExists, t)
    | none => (.ok (), ⟨(insRec t.root k v).1, t.size + 1⟩)

/-- `AVLTree::Delete`: `Find` first (signalling `KeyNotFound` before any
mutation), then `recursiveDelete`, `size--`, and `root = NULL` when the size
hits zero. -/
def treeDeleteOp (t : TreeS V) (k : Int) : Except TErr Unit × TreeS V :=
  match findNode t.root k with
  | none => (.error .keyNotFound, t)
  | some _ =>
      let r1 := delRec t.root k
      let s1 := t.size - 1
      (.ok (), ⟨if s1 = 0 then .nil else r1, s1⟩)

/-- One public mutation of the tree. -/
inductive TreeOp (V : Type) where
  | ins (k : Int) (v : V)
  | del (k : Int)

/-- Applies one operation with exception semantics: a signalled error leaves
the state as the operation's own error path left it. -/
def stepTree (t : TreeS V) : TreeOp V → TreeS V
  | .ins k v => (treeInsertOp t k v).2
  | .del k => (treeDeleteOp t k).2

/-- Runs a sequence of public mutations on an initially empty tree. -/
def runTreeOps (ops : List (TreeOp V)) : TreeS V :=
  ops.foldl stepTree emptyTree

/-- Inserts the listed keys (with value 0) in order into an empty tree. -/
def insertList (ks : List Int) : TreeS Int :=
  runTreeOps (ks.map fun k => TreeOp.ins k 0)

/-- One ancestor frame of an iterator position: which side the current node
hangs off (`fromLeft`), the ancestor's own fields, and the other subtree.
This renders the node's non-owning parent back-reference functionally. -/
structure ZFrame (V : Type) : Type where
  fromLeft : Bool
  k : Int
  v : V
  lh : Int
  rh : Int
  other : NodeT V
deriving DecidableEq, Repr

/-- Insertion of a key/value pair into an association list at its ordered
position: the specification-level description of where `recursiveInsert`
places the new leaf in the in-order sequence. -/
def insOrd (k : Int) (v : V) : List (Int × V) → List (Int × V)
  | [] => [(k, v)]
  | (a, b) :: rest => if k < a then (k, v) :: (a, b) :: rest else (a, b) :: insOrd k v rest

/-- Removal of the first pair carrying the given key from an association
list: the specification-level description of `recursiveDelete`'s effect on
the in-order sequence. -/
def eraseKey (k : Int) : List (Int × V) → List (Int × V)
  | [] => []
  | (a, b) :: rest => if a = k then rest else (a, b) :: eraseKey k rest

/-- The binary-search-tree ordering property, phrased on the in-order key
sequence: strictly ascending keys. -/
def sortedKeys (t : NodeT V) : Prop := List.Sorted (· < ·) (keysOf t)

/-- Well-formedness of a tree object: the in-order keys are strictly
ascending and the live element count equals the traversal length. -/
def TreeWF (t : TreeS V) : Prop :=
  sortedKeys t.root ∧ t.size = ((inorder t.root).length : Int)

/-- `AVLTree::iterator`: a current node pointer (`nil` renders a null
`current`) together with the ancestor chain up to the root of its tree. -/
structure TIter (V : Type) : Type where
  cur : NodeT V
  up : List (ZFrame V)
deriving DecidableEq, Repr

/-- `iterator::MoveLeft`: only a null `current` signals
`AVLTreeIteratorReachedEnd`; otherwise `current = current->getLeft()` even
when the left child is null. -/
def moveLeftIt (it : TIter V) : Except IterErr (TIter V) :=
  match it.cur with
  | .nil => .error .pastEnd
  | .node l k v lh rh r => .ok ⟨l, ⟨true, k, v, lh, rh, r⟩ :: it.up⟩

/-- `iterator::MoveRight`: mirror of `MoveLeft`. -/
def moveRightIt (it : TIter V) : Except IterErr (TIter V) :=
  match it.cur with
  | .nil => .error .pastEnd
  | .node l k v lh rh r => .ok ⟨r, ⟨false, k, v, lh, rh, l⟩ :: it.up⟩

/-- `iterator::moveToParent`: a null `current` signals
`AVLTreeIteratorReachedEnd`; a null parent signals
`AVLTreeIteratorReachedRoot`; otherwise the position moves to the parent
node (reconstructed from the ancestor frame). -/
def moveToParentIt (it : TIter V) : Except IterErr (TIter V) :=
  match it.cur with
  | .nil => .error .pastEnd
  | n =>
    match it.up with
    | [] => .error .atRoot
    | f :: rest =>
        if f.fromLeft then .ok ⟨.node n f.k f.v f.lh f.rh f.other, rest⟩
        else .ok ⟨.node f.other f.k f.v f.lh f.rh n, rest⟩

/-- `AVLTree::getTreeHeightByNodesCount` loop: smallest `h` at or above the
start with `2^h - 1 ≥ n` (a "full tree" of height `h` admits `2^h - 1`
nodes).  The C++ takes `int` and throws on negative counts; `generateInOrder`
already rejects those, so the model works at `Nat`. -/
def heightForGo (n : Nat) (h : Nat) : Nat :=
  if 2 ^ h - 1 < n then heightForGo n (h + 1) else h
termination_by n + 1 - 2 ^ h
decreasing_by
  have hp : 0 < 2 ^ h := Nat.pow_pos (by omega)
  have hq : 2 ^ (h + 1) = 2 ^ h * 2 := pow_succ 2 h
  omega

/-- `AVLTree::getTreeHeightByNodesCount`: the loop started at height 0. -/
def getTreeHeightByNodesCount (count : Nat) : Nat := heightForGo count 0

/-- `AVLTree::createBlankTree`: perfect tree of the given height with
default-constructed keys and data; cached heights are set through
`setLeft`/`setRight` (each call also increments the tree's `size` by one,
`2^h - 1` increments in total). -/
def blankTree [Inhabited V] : Nat → NodeT V
  | 0 => .nil
  | h + 1 =>
      let l := blankTree h
      let r := blankTree h
      .node l 0 default (cachedHeight l) (cachedHeight r) r

/-- `AVLTree::trimTreeInOrder`: an in-order walk deleting currently-leaf
nodes until the running counter reaches the requested size; each frame first
returns if the counter has arrived, recurses left, deletes itself when it is
now a leaf, recurses right, and refreshes both cached heights.  Each deletion
also decrements the tree's `size` field once, so the number of deletions
equals the drop of the returned counter. -/
def trimT : NodeT V → Int → Int → NodeT V × Int
  | t, cur, req =>
    if cur = req then (t, cur)
    else
      match t with
      | .nil => (.nil, cur)
      | .node l k v _lh _rh r =>
        let pl := trimT l cur req
        match r, pl.1 with
        | .nil, .nil => (.nil, pl.2 - 1)
        | _, _ =>
            let pr := trimT r pl.2 req
            (.node pl.1 k v (cachedHeight pl.1) (cachedHeight pr.1) pr.1, pr.2)

/-- `AVLTree::fillTreeInOrder`: stamps the ordered key/value pairs into the
skeleton in-order (`setData`/`setKey` touch no heights); returns the filled
subtree and the pairs not yet consumed.  An exhausted pair list renders the
out-of-bounds array read of the C++ (unreachable when the skeleton has
exactly as many nodes as there are pairs) by leaving the node unchanged. -/
def fillT : NodeT V → List (Int × V) → NodeT V × List (Int × V)
  | .nil, ps => (.nil, ps)
  | .node l k v lh rh r, ps =>
      let pl := fillT l ps
      match pl.2 with
      | [] =>
          let pr := fillT r []
          (.node pl.1 k v lh rh pr.1, pr.2)
      | (nk, nv) :: rest =>
          let pr := fillT r rest
          (.node pl.1 nk nv lh rh pr.1, pr.2)

/-- `AVLTree::generateInOrder`: validation in source order (`count < 0` →
`InvalidArgument`; `count == 0` → silent return; null data or keys buffer →
`NullArgument`), then — only when the stored size differs from `count` — the
old tree is destructed (`size` drops by its node count), a blank perfect tree
of the minimal admitting height is built and trimmed down to `count` nodes,
and finally the copied data and the keys are stamped in-order.  Buffers are
`Option` lists (`none` renders a null pointer); `std::pow(2,h) - 1` is exact
for the heights that occur here. -/
def genInOrder [Inhabited V] (t : TreeS V) (arrData : Option (List V))
    (arrKeys : Option (List Int)) (count : Int) : Except TErr (TreeS V) :=
  if count < 0 then .error .invalidArg
  else if count = 0 then .ok t
  else
    match arrData, arrKeys with
    | some ds, some ks =>
        let pairs := ks.zip ds
        if t.size ≠ count then
          let s1 := t.size - (nodesCount t.root : Int)
          let h := getTreeHeightByNodesCount count.toNat
          let cur0 : Int := 2 ^ h - 1
          let bt : NodeT V := blankTree h
          let s2 := s1 + (nodesCount bt : Int)
          let pr := trimT bt cur0 count
          let s3 := s2 - (cur0 - pr.2)
          .ok ⟨(fillT pr.1 pairs).1, s3⟩
        else
          .ok ⟨(fillT t.root pairs).1, t.size⟩
    | _, _ => .error .nullArg

/-- Map-level error taxonomy of `exceptions.hpp`; `tree e` renders an
uncaught AVL-tree exception escaping through a map operation. -/
inductive MErr where
  | keyNotFound
  | keyAlreadyExists
  | tree (e : TErr)
deriving DecidableEq, Repr

/-- The `HashMap` object: the bucket array of AVL trees whose data are
payload pointers (`V*`, modelled as `Nat` allocation ids), the capacity
`_size`, the live count `_count`, plus the allocation state: `next` is the
next fresh pointer id and `heap` the cells allocated so far (rendering
`new V(obj)`); freed cells are not reclaimed by the model. -/
structure MapS (V : Type) : Type where
  buckets : List (TreeS Nat)
  sz : Int
  cnt : Int
  next : Nat
  heap : List V

/-- `HashMap::hashFunction`: C++ `%` on `int` truncates toward zero
(`Int.tmod`), and a negative remainder is corrected by adding `_size`. -/
def hashF (sz : Int) (k : Int) : Int :=
  let r := Int.tmod k sz
  if 0 ≤ r then r else r + sz

/-- The bucket array entry at an index (`entries[i]`). -/
def bucketAt (m : MapS V) (i : Nat) : TreeS Nat := m.buckets.getD i emptyTree

/-- `HashMap::Contains`: route to the bucket and `Find`, converting the
not-found signal into a boolean. -/
def mapContains (m : MapS V) (k : Int) : Bool :=
  (findNode (bucketAt m (hashF m.sz k).toNat).root k).isSome

/-- All key/pointer pairs of the map, bucket by bucket, each bucket in
in-order: exactly the drain order of `Resize`. -/
def allPairsM (m : MapS V) : List (Int × Nat) :=
  (m.buckets.map fun b => inorder b.root).flatten

/-- All keys held by the map. -/
def mapKeys (m : MapS V) : List Int := (allPairsM m).map Prod.fst

/-- Modelled from the spec: `inOrderExtractKeys` and `inOrderExtractData`
are called by `HashMap::Resize` (and the destructor) but are not defined in
the sources; per the spec each bucket is "drained in sorted order (extracting
its keys and owned-value-pointers without copying payload objects)", i.e.
the bucket tree's in-order key and pointer sequences. -/
def drainPairs (bs : List (TreeS Nat)) : List (Int × Nat) :=
  (bs.map fun b => inorder b.root).flatten

/-- The reinsertion loop of `HashMap::Resize`: every drained (key, pointer)
pair is inserted into the fresh bucket array at the index given by the hash
against the new capacity, counting the insertions.  A duplicate key
(unreachable for well-formed maps) would make the bucket's `Insert` throw,
and the exception propagates. -/
def reinsertAll (newsz : Int) :
    List (Int × Nat) → List (TreeS Nat) → Int → Except TErr (List (TreeS Nat) × Int)
  | [], bs, c => .ok (bs, c)
  | (k, p) :: rest, bs, c =>
      let idx := (hashF newsz k).toNat
      match treeInsertOp (bs.getD idx emptyTree) k p with
      | (.error e, _) => .error e
      | (.ok _, b2) => reinsertAll newsz rest (bs.set idx b2) (c + 1)

/-- `HashMap::Resize`: a shrink at the initial floor capacity (10) is a
no-op; otherwise the capacity is doubled or halved (C++ integer division
truncates, `Int.tdiv`), all buckets are drained in order into key/pointer
pairs, a fresh bucket array of the new capacity is allocated, the count
restarts at zero and every pair is re-homed by the new hash.  No heap cell
is allocated or copied: payload pointers move intact. -/
def mapResize (m : MapS V) (increase : Bool) : Except TErr (MapS V) :=
  if increase = false ∧ m.sz = 10 then .ok m
  else
    let newsz : Int := if increase then m.sz * 2 else m.sz.tdiv 2
    match reinsertAll newsz (drainPairs m.buckets)
        (List.replicate newsz.toNat emptyTree) 0 with
    | .ok (bs, c) =>
        .ok { buckets := bs, sz := newsz, cnt := c, next := m.next, heap := m.heap }
    | .error e => .error e

/-- `HashMap::loadFactorCheckAndResize`: the `double` comparisons
`0.75 <= count/size` and `0.25 >= count/size` are exact rational comparisons
for the integer magnitudes in play, rendered as `3*size <= 4*count` and
`4*count <= size`. -/
def loadCheck (m : MapS V) : Except TErr (MapS V) :=
  if 3 * m.sz ≤ 4 * m.cnt then mapResize m true
  else if 4 * m.cnt ≤ m.sz then mapResize m false
  else .ok m

/-- The freshly constructed map: ten empty buckets, no entries. -/
def mapInit : MapS V := ⟨List.replicate 10 emptyTree, 10, 0, 0, []⟩

/-- `HashMap::Insert`, state-threaded: the duplicate check runs before any
mutation; then `new V(obj)` allocates a fresh heap cell holding a copy of
the caller's value, the (key, pointer) pair goes into the target bucket,
`_count` is incremented and the load factor checked.  The returned `Nat` is
the pointer `Insert` returns to the caller. -/
def mapInsertOp (m : MapS V) (k : Int) (v : V) : Except MErr Nat × MapS V :=
  if mapContains m k then (.error .keyAlreadyExists, m)
  else
    let idx := (hashF m.sz k).toNat
    let p := m.next
    let m0 : MapS V := { m with next := m.next + 1, heap := m.heap ++ [v] }
    match treeInsertOp (bucketAt m0 idx) k p with
    | (.error e, _) => (.error (.tree e), m0)
    | (.ok _, b2) =>
        let m1 : MapS V := { m0 with buckets := m0.buckets.set idx b2, cnt := m0.cnt + 1 }
        match loadCheck m1 with
        | .ok m2 => (.ok p, m2)
        | .error e => (.error (.tree e), m1)

/-- `HashMap::Delete`, state-threaded: the absence check runs before any
mutation; then the payload behind the stored pointer is freed (cells are not
reclaimed in the model), the bucket entry deleted, `_count` decremented and
the load factor checked. -/
def mapDeleteOp (m : MapS V) (k : Int) : Except MErr Unit × MapS V :=
  if mapContains m k = false then (.error .keyNotFound, m)
  else
    let idx := (hashF m.sz k).toNat
    match treeDeleteOp (bucketAt m idx) k with
    | (.error e, _) => (.error (.tree e), m)
    | (.ok _, b2) =>
        let m1 : MapS V := { m with buckets := m.buckets.set idx b2, cnt := m.cnt - 1 }
        match loadCheck m1 with
        | .ok m2 => (.ok (), m2)
        | .error e => (.error (.tree e), m1)

/-- `HashMap::Find`: absence signals `KeyNotFound`, otherwise the payload
object the stored pointer owns is returned. -/
def mapFindE [Inhabited V] (m : MapS V) (k : Int) : Except MErr V :=
  if mapContains m k = false then .error .keyNotFound
  else
    match findNode (bucketAt m (hashF m.sz k).toNat).root k with
    | some (.node _ _ p _ _ _) => .ok (m.heap.getD p default)
    | _ => .error .keyNotFound

/-- Reachable map states: the freshly constructed map closed under `Insert`
and `Delete` (a signalled error leaves the state exactly as the operation's
error path left it). -/
inductive ReachableM : MapS V → Prop where
  | init : ReachableM mapInit
  | ins (m : MapS V) (k : Int) (v : V) : ReachableM m → ReachableM (mapInsertOp m k v).2
  | del (m : MapS V) (k : Int) : ReachableM m → ReachableM (mapDeleteOp m k).2

/-- Structural well-formedness of a map state: bucket array length matches
the capacity, the count equals the number of stored pairs, every bucket is a
well-formed tree, and every pair lives in the bucket its hash selects. -/
def MapShape (m : MapS V) : Prop :=
  m.buckets.length = m.sz.toNat ∧
  0 < m.sz ∧
  m.cnt = ((allPairsM m).length : Int) ∧
  (∀ b ∈ m.buckets, TreeWF b) ∧
  (∀ i, i < m.buckets.length →
    ∀ pr ∈ inorder (bucketAt m i).root, hashF m.sz pr.1 = (i : Int))

/-- Full well-formedness: the structure above, a capacity of the form
`10·2^j`, stored pointers pointing at previously allocated heap cells, and
the steady-state load-factor invariant on the counters. -/
def MapWF (m : MapS V) : Prop :=
  MapShape m ∧
  (∃ j : Nat, m.sz = 10 * 2 ^ j) ∧
  (∀ pr ∈ allPairsM m, pr.2 < m.next) ∧
  m.heap.length = m.next ∧
  4 * m.cnt < 3 * m.sz ∧ (m.sz = 10 ∨ m.sz < 4 * m.cnt)

/-- A perfect ("full") binary tree of exactly the given height. -/
def isPerfect : Nat → NodeT V → Prop
  | 0, .nil => True
  | h + 1, .node l _ _ _ _ r => isPerfect h l ∧ isPerfect h r
  | _, _ => False

/-- Number of bottom-level leaves of a perfect tree of the given height. -/
def leafCount : Nat → Nat
  | 0 => 0
  | h + 1 => 2 ^ h

/-- `iterator::operator*`: dereferencing a null `current` signals
`AVLTreeIteratorReachedEnd`, otherwise the node's data is returned. -/
def derefIt (it : TIter V) : Except IterErr V :=
  match it.cur with
  | .nil => .error .pastEnd
  | .node _ _ v _ _ _ => .ok v

end DS

namespace DS

/-! Rotations rearrange links but never the in-order sequence. -/

theorem keysOf_node (l : NodeT V) (k : Int) (v : V) (lh rh : Int) (r : NodeT V) :
    keysOf (NodeT.node l k v lh rh r) = keysOf l ++ k :: keysOf r := by
  simp [keysOf, inorder]

theorem inorder_rotateLL : ∀ t : NodeT V, inorder (rotateLL t) = inorder t
  | .nil => rfl
  | .node .nil _ _ _ _ _ => rfl
  | .node (.node _ _ _ _ _ _) _ _ _ _ _ => by
      simp [rotateLL, inorder, List.append_assoc]

theorem inorder_rotateRR : ∀ t : NodeT V, inorder (rotateRR t) = inorder t
  | .nil => rfl
  | .node _ _ _ _ _ .nil => rfl
  | .node _ _ _ _ _ (.node _ _ _ _ _ _) => by
      simp [rotateRR, inorder, List.append_assoc]

theorem inorder_rotateLR : ∀ t : NodeT V, inorder (rotateLR t) = inorder t
  | .nil => rfl
  | .node _ _ _ _ _ _ => by
      simp [rotateLR, inorder, inorder_rotateLL, inorder_rotateRR]

theorem inorder_rotateRL : ∀ t : NodeT V, inorder (rotateRL t) = inorder t
  | .nil => rfl
  | .node _ _ _ _ _ _ => by
      simp [rotateRL, inorder, inorder_rotateLL, inorder_rotateRR]

theorem inorder_rotateStep (t : NodeT V) : inorder (rotateStep t).1 = inorder t := by
  cases t with
  | nil => rfl
  | node l k v lh rh r =>
    cases l <;> cases r <;>
      simp only [rotateStep] <;> split_ifs <;>
        simp [inorder_rotateLL, inorder_rotateLR, inorder_rotateRL, inorder_rotateRR]

/-! Ordered insertion into and keyed erasure from association lists. -/

theorem insOrd_skip (k : Int) (v : V) :
    ∀ (xs ys : List (Int × V)), (∀ p ∈ xs, p.1 < k) →
      insOrd k v (xs ++ ys) = xs ++ insOrd k v ys
  | [], _, _ => rfl
  | (a, b) :: xs, ys, h => by
      have ha : a < k := h (a, b) (by simp)
      simp only [List.cons_append, List.append_eq, insOrd, if_neg (not_lt.mpr ha.le)]
      rw [insOrd_skip k v xs ys (fun p hp => h p (List.mem_cons_of_mem _ hp))]

theorem insOrd_before (k : Int) (v : V) (c : Int) (w : V) :
    ∀ (xs ys : List (Int × V)), k < c →
      insOrd k v (xs ++ (c, w) :: ys) = insOrd k v xs ++ (c, w) :: ys
  | [], ys, h => by simp [insOrd, h]
  | (a, b) :: xs, ys, h => by
      by_cases hk : k < a
      · simp [insOrd, hk]
      · simp only [List.cons_append, List.append_eq, insOrd, if_neg hk]
        rw [insOrd_before k v c w xs ys h]

theorem insOrd_append_last (k : Int) (v : V) :
    ∀ xs : List (Int × V), (∀ p ∈ xs, p.1 < k) → insOrd k v xs = xs ++ [(k, v)]
  | [], _ => rfl
  | (a, b) :: xs, h => by
      have ha : a < k := h (a, b) (by simp)
      simp only [insOrd, if_neg (not_lt.mpr ha.le), List.cons_append]
      rw [insOrd_append_last k v xs (fun p hp => h p (List.mem_cons_of_mem _ hp))]

theorem insOrd_length (k : Int) (v : V) :
    ∀ l : List (Int × V), (insOrd k v l).length = l.length + 1
  | [] => rfl
  | (a, b) :: rest => by
      by_cases hk : k < a
      · simp [insOrd, hk]
      · simp [insOrd, hk, insOrd_length k v rest]

theorem insOrd_perm (k : Int) (v : V) :
    ∀ l : List (Int × V), (insOrd k v l).Perm ((k, v) :: l)
  | [] => List.Perm.refl _
  | (a, b) :: rest => by
      by_cases hk : k < a
      · simp [insOrd, hk]
      · simp only [insOrd, if_neg hk]
        exact ((insOrd_perm k v rest).cons (a, b)).trans (List.Perm.swap _ _ _)

theorem insOrd_sorted (k : Int) (v : V) :
    ∀ l : List (Int × V), k ∉ l.map Prod.fst →
      List.Sorted (· < ·) (l.map Prod.fst) →
      List.Sorted (· < ·) ((insOrd k v l).map Prod.fst)
  | [], _, _ => by simp [insOrd]
  | (a, b) :: rest, hm, hs => by
      rw [List.map_cons, List.sorted_cons] at hs
      have hka : k ≠ a := by simp at hm; exact fun h => (hm.1 h).elim
      by_cases hk : k < a
      · simp only [insOrd, if_pos hk, List.map_cons, List.sorted_cons]
        refine ⟨?_, hs⟩
        intro b2 hb2
        rcases List.mem_cons.mp hb2 with rfl | hb2
        · exact hk
        · exact hk.trans (hs.1 b2 hb2)
      · have hak : a < k := lt_of_le_of_ne (not_lt.mp hk) (Ne.symm hka)
        simp only [insOrd, if_neg hk, List.map_cons, List.sorted_cons]
        have hmem : ∀ y ∈ (insOrd k v rest).map Prod.fst, a < y := by
          intro y hy
          have := ((insOrd_perm k v rest).map Prod.fst).mem_iff.mp hy
          rcases List.mem_cons.mp this with rfl | hy2
          · exact hak
          · exact hs.1 y hy2
        refine ⟨hmem, insOrd_sorted k v rest ?_ hs.2⟩
        intro hkr
        exact absurd (by simp [hkr] : k ∈ ((a, b) :: rest).map Prod.fst) hm

theorem eraseKey_sublist (k : Int) :
    ∀ l : List (Int × V), (eraseKey k l).Sublist l
  | [] => List.Sublist.refl _
  | (a, b) :: rest => by
      by_cases h : a = k
      · simp only [eraseKey, if_pos h]
        exact List.sublist_cons_self _ _
      · simp only [eraseKey, if_neg h]
        exact (eraseKey_sublist k rest).cons₂ _

theorem eraseKey_skip (k : Int) :
    ∀ (xs ys : List (Int × V)), (∀ p ∈ xs, p.1 ≠ k) →
      eraseKey k (xs ++ ys) = xs ++ eraseKey k ys
  | [], _, _ => rfl
  | (a, b) :: xs, ys, h => by
      have ha : a ≠ k := h (a, b) (by simp)
      simp only [List.cons_append, List.append_eq, eraseKey, if_neg ha]
      rw [eraseKey_skip k xs ys (fun p hp => h p (List.mem_cons_of_mem _ hp))]

theorem eraseKey_append_left (k : Int) :
    ∀ (xs ys : List (Int × V)), k ∈ xs.map Prod.fst →
      eraseKey k (xs ++ ys) = eraseKey k xs ++ ys
  | [], _, h => by simp at h
  | (a, b) :: xs, ys, h => by
      by_cases ha : a = k
      · simp [eraseKey, ha]
      · simp only [List.cons_append, List.append_eq, eraseKey, if_neg ha]
        have : k ∈ xs.map Prod.fst := by
          simp only [List.map_cons, List.mem_cons] at h
          exact h.resolve_left (fun hh => ha hh.symm)
        rw [eraseKey_append_left k xs ys this]

theorem eraseKey_length (k : Int) :
    ∀ l : List (Int × V), k ∈ l.map Prod.fst →
      (eraseKey k l).length + 1 = l.length
  | [], h => by simp at h
  | (a, b) :: rest, h => by
      by_cases ha : a = k
      · simp [eraseKey, ha]
      · simp only [List.map_cons, List.mem_cons] at h
        have : k ∈ rest.map Prod.fst := h.resolve_left (fun hh => ha hh.symm)
        simp only [eraseKey, if_neg ha, List.length_cons]
        rw [← eraseKey_length k rest this]

/-! Binary-search-tree structure lemmas. -/

theorem sorted_append_iff {l1 l2 : List Int} :
    List.Sorted (· < ·) (l1 ++ l2) ↔
      List.Sorted (· < ·) l1 ∧ List.Sorted (· < ·) l2 ∧ ∀ x ∈ l1, ∀ y ∈ l2, x < y :=
  List.pairwise_append

theorem sortedKeys_node_iff {l r : NodeT V} {k : Int} {v : V} {lh rh : Int} :
    sortedKeys (NodeT.node l k v lh rh r) ↔
      sortedKeys l ∧ sortedKeys r ∧
        (∀ x ∈ keysOf l, x < k) ∧ (∀ y ∈ keysOf r, k < y) := by
  unfold sortedKeys
  rw [keysOf_node, sorted_append_iff, List.sorted_cons]
  constructor
  · rintro ⟨h1, ⟨h2, h3⟩, h4⟩
    exact ⟨h1, h3, fun x hx => h4 x hx k (List.mem_cons_self _ _), h2⟩
  · rintro ⟨h1, h2, h3, h4⟩
    refine ⟨h1, ⟨h4, h2⟩, ?_⟩
    intro x hx y hy
    rcases List.mem_cons.mp hy with rfl | hy
    · exact h3 x hx
    · exact (h3 x hx).trans (h4 y hy)

theorem mem_of_findNode_some {t : NodeT V} {k : Int} {n : NodeT V}
    (h : findNode t k = some n) : k ∈ keysOf t := by
  induction t with
  | nil => simp [findNode] at h
  | node l ck cv lh rh r ihl ihr =>
    rw [keysOf_node]
    simp only [findNode] at h
    by_cases h1 : ck > k
    · rw [if_pos h1] at h
      exact List.mem_append_left _ (ihl h)
    · rw [if_neg h1] at h
      by_cases h2 : ck < k
      · rw [if_pos h2] at h
        exact List.mem_append_right _ (List.mem_cons_of_mem _ (ihr h))
      · have : ck = k := by omega
        subst this
        simp

theorem findNode_isSome_of_mem {t : NodeT V} {k : Int}
    (hs : sortedKeys t) (hm : k ∈ keysOf t) : (findNode t k).isSome := by
  induction t with
  | nil => simp [keysOf, inorder] at hm
  | node l ck cv lh rh r ihl ihr =>
    rw [sortedKeys_node_iff] at hs
    obtain ⟨hsl, hsr, hbl, hbr⟩ := hs
    rw [keysOf_node] at hm
    simp only [findNode]
    rcases List.mem_append.mp hm with hml | hmr
    · rw [if_pos (hbl k hml)]
      exact ihl hsl hml
    · rcases List.mem_cons.mp hmr with rfl | hmr
      · simp
      · have hck : ck < k := hbr k hmr
        rw [if_neg (by omega), if_pos hck]
        exact ihr hsr hmr

theorem findNode_none_of_not_mem {t : NodeT V} {k : Int}
    (hm : k ∉ keysOf t) : findNode t k = none := by
  cases h : findNode t k with
  | none => rfl
  | some n => exact absurd (mem_of_findNode_some h) hm

/-- Ordered insertion into the middle-right of a decomposed list. -/
theorem insOrd_into_right (k : Int) (v : V) (A B : List (Int × V)) (ck : Int) (cv : V)
    (hA : ∀ p ∈ A, p.1 < ck) (hck : ck < k) :
    insOrd k v (A ++ (ck, cv) :: B) = A ++ (ck, cv) :: insOrd k v B := by
  have hcond : ∀ p ∈ A ++ [(ck, cv)], p.1 < k := by
    intro p hp
    rcases List.mem_append.mp hp with h1 | h1
    · exact (hA p h1).trans hck
    · simp at h1; rw [h1]; exact hck
  have h2 := insOrd_skip k v (A ++ [(ck, cv)]) B hcond
  simpa using h2

/-- On a binary search tree, `recursiveInsert` places the new key at its
ordered position in the in-order sequence (rotations never disturb the
sequence). -/
theorem insRec_inorder (k : Int) (v : V) (t : NodeT V) :
    sortedKeys t → k ∉ keysOf t →
      inorder (insRec t k v).1 = insOrd k v (inorder t) := by
  induction t with
  | nil => intro _ _; simp [insRec, inorder, insOrd]
  | node l ck cv lh rh r ihl ihr =>
    intro hs hm
    rw [sortedKeys_node_iff] at hs
    obtain ⟨hsl, hsr, hbl, hbr⟩ := hs
    rw [keysOf_node] at hm
    have hml : k ∉ keysOf l := fun hh => hm (List.mem_append_left _ hh)
    have hmr : k ∉ keysOf r :=
      fun hh => hm (List.mem_append_right _ (List.mem_cons_of_mem _ hh))
    have hne : k ≠ ck := fun hh => hm (by simp [hh])
    have hA : ∀ p ∈ inorder l, p.1 < ck :=
      fun p hp => hbl p.1 (List.mem_map_of_mem Prod.fst hp)
    cases l with
    | nil =>
      cases r with
      | nil =>
        by_cases h : ck < k
        · simp only [insRec, if_pos h, inorder_rotateStep]
          show [(ck, cv), (k, v)] = insOrd k v [(ck, cv)]
          simp [insOrd, not_lt.mpr h.le]
        · have hkc : k < ck := lt_of_le_of_ne (not_lt.mp h) hne
          simp only [insRec, if_neg h, inorder_rotateStep]
          show [(k, v), (ck, cv)] = insOrd k v [(ck, cv)]
          simp [insOrd, hkc]
      | node p q s u w x =>
        by_cases h : k < ck
        · simp only [insRec, if_pos h, inorder_rotateStep]
          show (k, v) :: (ck, cv) :: inorder (NodeT.node p q s u w x) =
            insOrd k v ((ck, cv) :: inorder (NodeT.node p q s u w x))
          simp [insOrd, h]
        · have hck : ck < k := lt_of_le_of_ne (not_lt.mp h) (Ne.symm hne)
          simp only [insRec, if_neg h, inorder_rotateStep]
          show (ck, cv) :: inorder (insRec (NodeT.node p q s u w x) k v).1 =
            insOrd k v ((ck, cv) :: inorder (NodeT.node p q s u w x))
          rw [ihr hsr hmr]
          simp [insOrd, not_lt.mpr hck.le]
    | node a b c d e f =>
      cases r with
      | nil =>
        by_cases h : k > ck
        · simp only [insRec, if_pos h, inorder_rotateStep]
          show inorder (NodeT.node a b c d e f) ++ (ck, cv) :: [(k, v)] =
            insOrd k v (inorder (NodeT.node a b c d e f) ++ [(ck, cv)])
          have hcond : ∀ p ∈ inorder (NodeT.node a b c d e f) ++ [(ck, cv)], p.1 < k := by
            intro p hp
            rcases List.mem_append.mp hp with h1 | h1
            · exact (hA p h1).trans h
            · simp at h1; rw [h1]; exact h
          rw [insOrd_append_last k v _ hcond]
          simp
        · have hkc : k < ck := lt_of_le_of_ne (not_lt.mp h) hne
          simp only [insRec, if_neg h, inorder_rotateStep]
          show inorder (insRec (NodeT.node a b c d e f) k v).1 ++ [(ck, cv)] =
            insOrd k v (inorder (NodeT.node a b c d e f) ++ [(ck, cv)])
          rw [ihl hsl hml, insOrd_before k v ck cv _ _ hkc]
      | node p q s u w x =>
        by_cases h : ck < k
        · simp only [insRec, if_pos h, inorder_rotateStep]
          show inorder (NodeT.node a b c d e f) ++
              (ck, cv) :: inorder (insRec (NodeT.node p q s u w x) k v).1 =
            insOrd k v (inorder (NodeT.node a b c d e f) ++
              (ck, cv) :: inorder (NodeT.node p q s u w x))
          rw [ihr hsr hmr, insOrd_into_right k v _ _ ck cv hA h]
        · have hkc : k < ck := lt_of_le_of_ne (not_lt.mp h) hne
          simp only [insRec, if_neg h, inorder_rotateStep]
          show inorder (insRec (NodeT.node a b c d e f) k v).1 ++
              (ck, cv) :: inorder (NodeT.node p q s u w x) =
            insOrd k v (inorder (NodeT.node a b c d e f) ++
              (ck, cv) :: inorder (NodeT.node p q s u w x))
          rw [ihl hsl hml, insOrd_before k v ck cv _ _ hkc]

/-- The leftmost node of a non-empty subtree heads its in-order sequence, and
relabelling it (the successor `swap`) replaces exactly that head. -/
theorem leftmost_decomp : ∀ t : NodeT V, t ≠ .nil →
    ∃ sk sv tl, leftmostKV t = some (sk, sv) ∧ inorder t = (sk, sv) :: tl ∧
      ∀ nk nv, inorder (replaceMin t nk nv) = (nk, nv) :: tl
  | .nil, h => absurd rfl h
  | .node .nil k v lh rh r, _ =>
      ⟨k, v, inorder r, rfl, by simp [inorder], fun nk nv => by simp [replaceMin, inorder]⟩
  | .node (.node a b c d e f) k v lh rh r, _ => by
      obtain ⟨sk, sv, tl, h1, h2, h3⟩ :=
        leftmost_decomp (.node a b c d e f) (fun h => NodeT.noConfusion h)
      refine ⟨sk, sv, tl ++ (k, v) :: inorder r, ?_, ?_, ?_⟩
      · simpa [leftmostKV] using h1
      · show inorder (NodeT.node a b c d e f) ++ (k, v) :: inorder r =
          (sk, sv) :: (tl ++ (k, v) :: inorder r)
        rw [h2]; simp
      · intro nk nv
        show inorder (replaceMin (NodeT.node a b c d e f) nk nv) ++ (k, v) :: inorder r =
          (nk, nv) :: (tl ++ (k, v) :: inorder r)
        rw [h3 nk nv]; simp

/-- Erasure of an absent-on-the-left key from a decomposed list. -/
theorem eraseKey_into_right (k : Int) (A B : List (Int × V)) (ck : Int) (cv : V)
    (hA : ∀ p ∈ A, p.1 ≠ k) (hck : ck ≠ k) :
    eraseKey k (A ++ (ck, cv) :: B) = A ++ (ck, cv) :: eraseKey k B := by
  have hcond : ∀ p ∈ A ++ [(ck, cv)], p.1 ≠ k := by
    intro p hp
    rcases List.mem_append.mp hp with h1 | h1
    · exact hA p h1
    · simp at h1; rw [h1]; exact hck
  have h2 := eraseKey_skip k (A ++ [(ck, cv)]) B hcond
  simpa using h2

/-- On a binary search tree holding the key, `recursiveDelete` removes
exactly that key's pair from the in-order sequence. -/
theorem delRec_inorder_aux :
    ∀ (n : Nat) (t : NodeT V) (k : Int), nodesCount t ≤ n →
      sortedKeys t → k ∈ keysOf t →
      inorder (delRec t k) = eraseKey k (inorder t) := by
  intro n
  induction n with
  | zero =>
    intro t k hle hs hm
    cases t with
    | nil => simp [keysOf, inorder] at hm
    | node l ck cv lh rh r => simp [nodesCount] at hle
  | succ n ih =>
    intro t k hle hs hm
    cases t with
    | nil => simp [keysOf, inorder] at hm
    | node l ck cv lh rh r =>
      rw [sortedKeys_node_iff] at hs
      obtain ⟨hsl, hsr, hbl, hbr⟩ := hs
      rw [keysOf_node] at hm
      simp only [nodesCount] at hle
      have hlkey : ∀ p ∈ inorder l, p.1 < ck := by
        intro p hp
        exact hbl p.1 (List.mem_map_of_mem Prod.fst hp)
      by_cases hck : ck = k
      · subst hck
        cases l with
        | nil =>
          cases r with
          | nil => rw [delRec.eq_def]; simp [inorder, eraseKey]
          | node p q s u w x =>
            rw [delRec.eq_def]
            simp [inorder, eraseKey]
        | node a b c d e f =>
          cases r with
          | nil =>
            rw [delRec.eq_def]
            simp only [eq_self_iff_true, if_true]
            show inorder (NodeT.node a b c d e f) =
              eraseKey ck (inorder (NodeT.node a b c d e f) ++ [(ck, cv)])
            rw [eraseKey_skip ck (inorder (NodeT.node a b c d e f)) _
              (fun p hp => ne_of_lt (hlkey p hp))]
            simp [eraseKey]
          | node p q s u w x =>
            obtain ⟨sk, sv, tl, h1, h2, h3⟩ :=
              leftmost_decomp (NodeT.node p q s u w x) (fun h => NodeT.noConfusion h)
            have hkeysr : keysOf (NodeT.node p q s u w x) = sk :: tl.map Prod.fst := by
              rw [keysOf, h2]; simp
            have htl_sorted : List.Sorted (· < ·) (tl.map Prod.fst) := by
              have := hsr
              rw [sortedKeys, hkeysr, List.sorted_cons] at this
              exact this.2
            have htl_gt : ∀ y ∈ tl.map Prod.fst, ck < y := by
              intro y hy
              exact hbr y (by rw [hkeysr]; exact List.mem_cons_of_mem _ hy)
            have hsr1 : sortedKeys (replaceMin (NodeT.node p q s u w x) ck cv) := by
              rw [sortedKeys, keysOf, h3 ck cv]
              simp only [List.map_cons]
              exact List.sorted_cons.mpr ⟨htl_gt, htl_sorted⟩
            have hcnt : nodesCount (replaceMin (NodeT.node p q s u w x) ck cv) ≤ n := by
              rw [nodesCount_replaceMin]
              simp only [nodesCount] at hle ⊢
              omega
            have hmem1 : ck ∈ keysOf (replaceMin (NodeT.node p q s u w x) ck cv) := by
              rw [keysOf, h3 ck cv]; simp
            rw [delRec.eq_def]
            simp only [eq_self_iff_true, if_true, h1, Option.getD_some, inorder_rotateStep]
            show inorder (NodeT.node a b c d e f) ++
                (sk, sv) :: inorder (delRec (replaceMin (NodeT.node p q s u w x) ck cv) ck) =
              eraseKey ck (inorder (NodeT.node a b c d e f) ++
                (ck, cv) :: inorder (NodeT.node p q s u w x))
            rw [ih _ _ hcnt hsr1 hmem1, h3 ck cv]
            rw [eraseKey_skip ck (inorder (NodeT.node a b c d e f)) _
              (fun p hp => ne_of_lt (hlkey p hp))]
            rw [h2]
            simp [eraseKey]
      · by_cases hlt : ck < k
        · have hmr : k ∈ keysOf r := by
            rcases List.mem_append.mp hm with hml2 | hmr2
            · exact absurd (hbl k hml2) (by omega)
            · rcases List.mem_cons.mp hmr2 with rfl | hmr3
              · exact absurd rfl hck
              · exact hmr3
          have hcnt : nodesCount r ≤ n := by omega
          rw [delRec.eq_def]
          simp only [if_neg hck, if_pos hlt, inorder_rotateStep]
          show inorder l ++ (ck, cv) :: inorder (delRec r k) =
            eraseKey k (inorder l ++ (ck, cv) :: inorder r)
          rw [ih _ _ hcnt hsr hmr,
            eraseKey_into_right k _ _ ck cv
              (fun p hp => ne_of_lt ((hlkey p hp).trans hlt)) hck]
        · have hgt : k < ck := lt_of_le_of_ne (not_lt.mp hlt) (Ne.symm hck)
          have hml2 : k ∈ keysOf l := by
            rcases List.mem_append.mp hm with hml3 | hmr2
            · exact hml3
            · rcases List.mem_cons.mp hmr2 with rfl | hmr3
              · exact absurd rfl hck
              · exact absurd (hbr k hmr3) (by omega)
          have hcnt : nodesCount l ≤ n := by omega
          rw [delRec.eq_def]
          simp only [if_neg hck, if_neg (not_lt.mpr hgt.le), inorder_rotateStep]
          show inorder (delRec l k) ++ (ck, cv) :: inorder r =
            eraseKey k (inorder l ++ (ck, cv) :: inorder r)
          rw [ih _ _ hcnt hsl hml2, eraseKey_append_left k _ _ hml2]

/-! Well-formedness is preserved by the public mutations. -/

theorem treeEmpty_wf {t : TreeS V} (hwf : TreeWF t) (h : treeEmpty t = true) :
    t.root = .nil ∧ t.size = 0 := by
  obtain ⟨hs, hlen⟩ := hwf
  unfold treeEmpty at h
  cases hr : t.root with
  | nil =>
    refine ⟨rfl, ?_⟩
    rw [hlen, hr]
    simp [inorder]
  | node l k v lh rh r =>
    rw [hr] at h hlen
    simp only [decide_eq_true_eq] at h
    rw [h] at hlen
    simp [inorder] at hlen
    exfalso
    omega

theorem treeInsert_wf (t : TreeS V) (k : Int) (v : V) (h : TreeWF t) :
    TreeWF (treeInsertOp t k v).2 := by
  unfold treeInsertOp
  by_cases he : treeEmpty t
  · rw [if_pos he]
    obtain ⟨hr, hsz⟩ := treeEmpty_wf h he
    constructor
    · simp [sortedKeys, keysOf, inorder]
    · simp [inorder, hsz]
  · rw [if_neg he]
    cases hf : findNode t.root k with
    | some n => exact h
    | none =>
      have hm : k ∉ keysOf t.root := by
        intro hmem
        have := findNode_isSome_of_mem h.1 hmem
        rw [hf] at this
        simp at this
      constructor
      · show List.Sorted (· < ·) ((inorder (insRec t.root k v).1).map Prod.fst)
        rw [insRec_inorder k v t.root h.1 hm]
        exact insOrd_sorted k v _ hm h.1
      · show t.size + 1 = ((inorder (insRec t.root k v).1).length : Int)
        rw [insRec_inorder k v t.root h.1 hm, insOrd_length, h.2]
        push_cast
        ring

theorem treeDelete_wf (t : TreeS V) (k : Int) (h : TreeWF t) :
    TreeWF (treeDeleteOp t k).2 := by
  unfold treeDeleteOp
  cases hf : findNode t.root k with
  | none => exact h
  | some n =>
    have hm : k ∈ keysOf t.root := mem_of_findNode_some hf
    have hio := delRec_inorder_aux (nodesCount t.root) t.root k le_rfl h.1 hm
    have hlen := eraseKey_length k (inorder t.root) hm
    show TreeWF ⟨if t.size - 1 = 0 then NodeT.nil else delRec t.root k, t.size - 1⟩
    by_cases hz : t.size - 1 = 0
    · rw [if_pos hz]
      exact ⟨by simp [sortedKeys, keysOf, inorder], by simp [inorder, hz]⟩
    · rw [if_neg hz]
      constructor
      · show List.Sorted (· < ·) ((inorder (delRec t.root k)).map Prod.fst)
        rw [hio]
        exact List.Pairwise.sublist ((eraseKey_sublist k _).map Prod.fst) h.1
      · show t.size - 1 = ((inorder (delRec t.root k)).length : Int)
        rw [hio, h.2]
        omega

theorem stepTree_wf (t : TreeS V) (op : TreeOp V) (h : TreeWF t) :
    TreeWF (stepTree t op) := by
  cases op with
  | ins k v => exact treeInsert_wf t k v h
  | del k => exact treeDelete_wf t k h

theorem emptyTree_wf : TreeWF (emptyTree : TreeS V) :=
  ⟨by simp [sortedKeys, keysOf, inorder, emptyTree], by simp [inorder, emptyTree]⟩

theorem runTreeOps_wf (ops : List (TreeOp V)) : TreeWF (runTreeOps ops) := by
  unfold runTreeOps
  have haux : ∀ (l : List (TreeOp V)) (t : TreeS V), TreeWF t → TreeWF (l.foldl stepTree t) := by
    intro l
    induction l with
    | nil => intro t h; exact h
    | cons op rest ih => intro t h; exact ih _ (stepTree_wf t op h)
  exact haux ops emptyTree emptyTree_wf

/-! The bulk rebuild: blank perfect trees, trimming, stamping. -/

theorem trimT_nil (cur req : Int) : trimT (NodeT.nil : NodeT V) cur req = (.nil, cur) := by
  rw [trimT]
  split_ifs <;> rfl

theorem blankTree_perfect [Inhabited V] : ∀ h : Nat, isPerfect h (blankTree h : NodeT V)
  | 0 => trivial
  | h + 1 => ⟨blankTree_perfect h, blankTree_perfect h⟩

theorem nodesCount_perfect : ∀ (h : Nat) (t : NodeT V), isPerfect h t →
    nodesCount t = 2 ^ h - 1
  | 0, .nil, _ => rfl
  | 0, .node _ _ _ _ _ _, hp => hp.elim
  | _ + 1, .nil, hp => hp.elim
  | h + 1, .node l _ _ _ _ r, hp => by
      obtain ⟨h1, h2⟩ := hp
      have hl := nodesCount_perfect h l h1
      have hr := nodesCount_perfect h r h2
      have hpos : 0 < 2 ^ h := Nat.pow_pos (by omega)
      have hpow : 2 ^ (h + 1) = 2 ^ h * 2 := pow_succ 2 h
      simp only [nodesCount, hl, hr]
      omega

theorem trueHeight_perfect : ∀ (h : Nat) (t : NodeT V), isPerfect h t →
    trueHeight t = h
  | 0, .nil, _ => rfl
  | 0, .node _ _ _ _ _ _, hp => hp.elim
  | _ + 1, .nil, hp => hp.elim
  | h + 1, .node l _ _ _ _ r, hp => by
      obtain ⟨h1, h2⟩ := hp
      simp only [trueHeight, trueHeight_perfect h l h1, trueHeight_perfect h r h2,
        max_self]

/-- Trimming a perfect tree of height `h` with `d = cur - req ≥ 0` removals
outstanding removes `min d (leafCount h)` bottom leaves in in-order, reduces
the counter by exactly that amount, and lowers the height only when every
bottom leaf went. -/
theorem trim_perfect :
    ∀ (h : Nat) (t : NodeT V), isPerfect h t → ∀ cur req : Int, req ≤ cur →
      (trimT t cur req).2 = cur - min (cur - req) (leafCount h : Int) ∧
      (nodesCount (trimT t cur req).1 : Int) =
        (2 ^ h - 1 : Int) - min (cur - req) (leafCount h : Int) ∧
      trueHeight (trimT t cur req).1 =
        (if min (cur - req) ((leafCount h : Int)) = (leafCount h : Int) then h - 1 else h) := by
  intro h
  induction h with
  | zero =>
    intro t hp cur req hle
    cases t with
    | node l k v lh rh r => exact hp.elim
    | nil =>
      rw [trimT_nil]
      have hmin : min (cur - req) ((leafCount 0 : Nat) : Int) = 0 := by
        simp [leafCount]
        omega
      refine ⟨?_, ?_, ?_⟩
      · simp [hmin]
      · simp [hmin, nodesCount]
      · simp [hmin, trueHeight, leafCount]
  | succ h ih =>
    intro t hp cur req hle
    cases t with
    | nil => exact hp.elim
    | node l k v lh rh r =>
      obtain ⟨hpl, hpr⟩ := hp
      by_cases hc : cur = req
      · have hred : trimT (NodeT.node l k v lh rh r) cur req =
            (NodeT.node l k v lh rh r, cur) := by
          rw [trimT]
          exact if_pos hc
        rw [hred]
        have hmin : min (cur - req) ((leafCount (h + 1) : Nat) : Int) = 0 := by
          have : (0 : Int) ≤ (leafCount (h + 1) : Int) := Int.natCast_nonneg _
          omega
        have hcnt := nodesCount_perfect (h + 1) (NodeT.node l k v lh rh r) ⟨hpl, hpr⟩
        have hht := trueHeight_perfect (h + 1) (NodeT.node l k v lh rh r) ⟨hpl, hpr⟩
        have hpos : 1 ≤ 2 ^ (h + 1) := Nat.pow_pos (by omega)
        have hlc : (0:Int) < (leafCount (h + 1) : Int) := by
          simp only [leafCount]
          positivity
        refine ⟨by omega, ?_, ?_⟩
        · rw [hcnt, hmin]
          have hc2 : ((2 ^ (h + 1) - 1 : Nat) : Int) = 2 ^ (h + 1) - 1 := by
            rw [Nat.cast_sub hpos]
            push_cast
            ring
          rw [hc2]
          ring
        · rw [hht, hmin, if_neg (by omega)]
      · cases r with
        | nil =>
          cases h with
          | succ h2 => exact hpr.elim
          | zero =>
            cases l with
            | node la lb lc ld le lf => exact hpl.elim
            | nil =>
              have hred : trimT (NodeT.node NodeT.nil k v lh rh NodeT.nil) cur req =
                  (NodeT.nil, cur - 1) := by
                rw [trimT]
                rw [if_neg hc]
                show (match (NodeT.nil : NodeT V), (trimT (NodeT.nil : NodeT V) cur req).1 with
                  | .nil, .nil => ((NodeT.nil : NodeT V), (trimT (NodeT.nil : NodeT V) cur req).2 - 1)
                  | _, _ =>
                    (NodeT.node (trimT (NodeT.nil : NodeT V) cur req).1 k v
                      (cachedHeight (trimT (NodeT.nil : NodeT V) cur req).1)
                      (cachedHeight (trimT (NodeT.nil : NodeT V) (trimT (NodeT.nil : NodeT V) cur req).2 req).1)
                      (trimT (NodeT.nil : NodeT V) (trimT (NodeT.nil : NodeT V) cur req).2 req).1,
                      (trimT (NodeT.nil : NodeT V) (trimT (NodeT.nil : NodeT V) cur req).2 req).2)) =
                  ((NodeT.nil : NodeT V), cur - 1)
                rw [trimT_nil]
              rw [hred]
              have hd : 1 ≤ cur - req := by omega
              have hl1 : ((leafCount 1 : Nat) : Int) = 1 := by
                norm_num [show leafCount 1 = 1 from rfl]
              refine ⟨?_, ?_, ?_⟩
              · rw [hl1]
                omega
              · rw [hl1]
                show ((0 : Nat) : Int) = 2 ^ 1 - 1 - min (cur - req) 1
                omega
              · rw [hl1]
                have hm : min (cur - req) (1 : Int) = 1 := by omega
                rw [if_pos hm]
                rfl
        | node ra rb rc rd re rf =>
          cases h with
          | zero => exact hpr.elim
          | succ h2 =>
            have hred : trimT (NodeT.node l k v lh rh (NodeT.node ra rb rc rd re rf)) cur req =
                (NodeT.node (trimT l cur req).1 k v (cachedHeight (trimT l cur req).1)
                  (cachedHeight (trimT (NodeT.node ra rb rc rd re rf) (trimT l cur req).2 req).1)
                  (trimT (NodeT.node ra rb rc rd re rf) (trimT l cur req).2 req).1,
                  (trimT (NodeT.node ra rb rc rd re rf) (trimT l cur req).2 req).2) := by
              rw [trimT]
              rw [if_neg hc]
            rw [hred]
            obtain ⟨el2, elc, elh⟩ := ih l hpl cur req hle
            have hlcpos : (0:Int) < ((leafCount (h2 + 1) : Nat) : Int) := by
              simp only [leafCount]
              positivity
            have hle2 : req ≤ (trimT l cur req).2 := by
              rw [el2]
              omega
            obtain ⟨er2, erc, erh⟩ :=
              ih (NodeT.node ra rb rc rd re rf) hpr (trimT l cur req).2 req hle2
            have hpow : ((leafCount (h2 + 1 + 1) : Nat) : Int) = 2 * ((leafCount (h2 + 1) : Nat) : Int) := by
              simp only [leafCount]
              push_cast [pow_succ]
              ring
            have hpow2 : ((2:Int) ^ (h2 + 1 + 1)) = 2 * 2 ^ (h2 + 1) := by
              rw [pow_succ]
              ring
            have hcnl : (0:Int) ≤ (nodesCount (trimT l cur req).1 : Int) := Int.natCast_nonneg _
            have hcnr : (0:Int) ≤
                (nodesCount (trimT (NodeT.node ra rb rc rd re rf) (trimT l cur req).2 req).1 : Int) :=
              Int.natCast_nonneg _
            have hp1 : (0:Int) < 2 ^ (h2 + 1) := by positivity
            refine ⟨?_, ?_, ?_⟩
            · rw [er2, el2]
              omega
            · show ((nodesCount (trimT l cur req).1 +
                nodesCount (trimT (NodeT.node ra rb rc rd re rf) (trimT l cur req).2 req).1 + 1 : Nat) : Int) = _
              push_cast
              rw [elc, erc, el2]
              omega
            · show max (trueHeight (trimT l cur req).1)
                  (trueHeight (trimT (NodeT.node ra rb rc rd re rf) (trimT l cur req).2 req).1) + 1 = _
              rw [elh, erh, el2]
              by_cases hm1 : min (cur - req) ((leafCount (h2 + 1) : Nat) : Int) =
                  ((leafCount (h2 + 1) : Nat) : Int)
              · rw [if_pos hm1]
                by_cases hm2 : min (cur - min (cur - req) ((leafCount (h2 + 1) : Nat) : Int) - req)
                    ((leafCount (h2 + 1) : Nat) : Int) = ((leafCount (h2 + 1) : Nat) : Int)
                · rw [if_pos hm2, if_pos (by omega)]
                  omega
                · rw [if_neg hm2, if_neg (by omega)]
                  omega
              · have hm1lt : min (cur - req) ((leafCount (h2 + 1) : Nat) : Int) = cur - req := by
                  omega
                rw [if_neg hm1]
                have hm2 : min (cur - min (cur - req) ((leafCount (h2 + 1) : Nat) : Int) - req)
                    ((leafCount (h2 + 1) : Nat) : Int) = 0 := by
                  omega
                rw [hm2, if_neg (by omega), if_neg (by omega)]
                omega

theorem fillT_spec : ∀ (t : NodeT V) (ps : List (Int × V)), nodesCount t ≤ ps.length →
    inorder (fillT t ps).1 = ps.take (nodesCount t) ∧
    (fillT t ps).2 = ps.drop (nodesCount t) ∧
    trueHeight (fillT t ps).1 = trueHeight t ∧
    nodesCount (fillT t ps).1 = nodesCount t
  | .nil, ps, _ => ⟨by simp [fillT, inorder, nodesCount], by simp [fillT, nodesCount], rfl, rfl⟩
  | .node l k v lh rh r, ps, hle => by
      simp only [nodesCount] at hle
      obtain ⟨il, dl, hl2, cl⟩ := fillT_spec l ps (by omega)
      have hlen : (ps.drop (nodesCount l)).length = ps.length - nodesCount l :=
        List.length_drop _ _
      cases hq : ps.drop (nodesCount l) with
      | nil =>
        rw [hq] at hlen
        simp at hlen
        omega
      | cons hd tl =>
        obtain ⟨nk, nv⟩ := hd
        rw [hq] at hlen
        have htl : nodesCount r ≤ tl.length := by
          simp at hlen
          omega
        obtain ⟨ir, dr, hr2, cr⟩ := fillT_spec r tl htl
        have hsc : (fillT l ps).2 = (nk, nv) :: tl := by rw [dl, hq]
        have hred : fillT (NodeT.node l k v lh rh r) ps =
            (.node (fillT l ps).1 nk nv lh rh (fillT r tl).1, (fillT r tl).2) := by
          simp only [fillT, hsc]
        rw [hred]
        refine ⟨?_, ?_, ?_, ?_⟩
        · show inorder (fillT l ps).1 ++ (nk, nv) :: inorder (fillT r tl).1 = _
          simp only [nodesCount]
          rw [il, ir]
          rw [show nodesCount l + nodesCount r + 1 = nodesCount l + (nodesCount r + 1) by ring,
            List.take_add, hq]
          simp
        · show (fillT r tl).2 = _
          simp only [nodesCount]
          rw [dr]
          rw [show nodesCount l + nodesCount r + 1 = nodesCount l + (nodesCount r + 1) by ring,
            ← List.drop_drop, hq]
          simp
        · show max (trueHeight (fillT l ps).1) (trueHeight (fillT r tl).1) + 1 = _
          rw [hl2, hr2]
          rfl
        · show nodesCount (fillT l ps).1 + nodesCount (fillT r tl).1 + 1 = _
          simp only [nodesCount]
          rw [cl, cr]

theorem heightForGo_ge (n : Nat) :
    ∀ (fuel h : Nat), n + 1 - 2 ^ h ≤ fuel → n ≤ 2 ^ heightForGo n h - 1 := by
  intro fuel
  induction fuel with
  | zero =>
    intro h hf
    rw [heightForGo]
    have hc : ¬(2 ^ h - 1 < n) := by
      have : 0 < 2 ^ h := Nat.pow_pos (by omega)
      omega
    rw [if_neg hc]
    have : 0 < 2 ^ h := Nat.pow_pos (by omega)
    omega
  | succ f ih =>
    intro h hf
    rw [heightForGo]
    by_cases hc : 2 ^ h - 1 < n
    · rw [if_pos hc]
      apply ih (h + 1)
      have hp : 0 < 2 ^ h := Nat.pow_pos (by omega)
      have hs : 2 ^ (h + 1) = 2 ^ h * 2 := pow_succ 2 h
      omega
    · rw [if_neg hc]
      have : 0 < 2 ^ h := Nat.pow_pos (by omega)
      omega

theorem heightForGo_min (n : Nat) :
    ∀ (fuel h : Nat), n + 1 - 2 ^ h ≤ fuel →
      heightForGo n h = h ∨ 2 ^ (heightForGo n h - 1) - 1 < n := by
  intro fuel
  induction fuel with
  | zero =>
    intro h hf
    rw [heightForGo]
    have hc : ¬(2 ^ h - 1 < n) := by
      have : 0 < 2 ^ h := Nat.pow_pos (by omega)
      omega
    rw [if_neg hc]
    exact Or.inl rfl
  | succ f ih =>
    intro h hf
    rw [heightForGo]
    by_cases hc : 2 ^ h - 1 < n
    · rw [if_pos hc]
      have hp : 0 < 2 ^ h := Nat.pow_pos (by omega)
      have hs : 2 ^ (h + 1) = 2 ^ h * 2 := pow_succ 2 h
      rcases ih (h + 1) (by omega) with he | hlt
      · right
        rw [he]
        simpa using hc
      · right
        exact hlt
    · rw [if_neg hc]
      exact Or.inl rfl

/-- `getTreeHeightByNodesCount` returns the minimal height whose perfect tree
admits at least `n` nodes. -/
theorem heightFor_spec (n : Nat) (hn : 0 < n) :
    n ≤ 2 ^ getTreeHeightByNodesCount n - 1 ∧
    2 ^ (getTreeHeightByNodesCount n - 1) - 1 < n ∧
    0 < getTreeHeightByNodesCount n := by
  have h1 : n ≤ 2 ^ getTreeHeightByNodesCount n - 1 :=
    heightForGo_ge n (n + 1) 0 (by simp)
  have h2 := heightForGo_min n (n + 1) 0 (by simp)
  have h3 : 0 < getTreeHeightByNodesCount n := by
    rcases Nat.eq_zero_or_pos (getTreeHeightByNodesCount n) with he | hp
    · rw [he] at h1
      omega
    · exact hp
  simp only [getTreeHeightByNodesCount] at h1 h3 ⊢
  rcases h2 with he | hlt
  · rw [he] at h1
    exfalso
    omega
  · exact ⟨h1, hlt, h3⟩

theorem length_inorder (t : NodeT V) : (inorder t).length = nodesCount t := by
  induction t with
  | nil => rfl
  | node l k v lh rh r ihl ihr =>
    simp only [inorder, nodesCount, List.length_append, List.length_cons, ihl, ihr]
    omega

/-- Claim C9 — counterexample.  Calling the bulk load with null data and keys
buffers and a zero count returns silently: no `NullArgument` error is
signalled, because the `count == 0` early return precedes the null check. -/
theorem C9_cex_zero_count_null_buffers_silent :
    genInOrder (emptyTree : TreeS Int) none none 0 = .ok emptyTree := rfl

/-- Claim C9 — amended.  A negative count signals `InvalidArgument` before
anything else; a null data or keys buffer signals `NullArgument` only when
the count is positive; a zero count returns with no error and no mutation
regardless of the buffers.  All of these checks precede any mutation. -/
theorem C9_amended_argument_checks (V : Type) [Inhabited V] (t : TreeS V)
    (ds : Option (List V)) (ks : Option (List Int)) (c : Int) :
    (c < 0 → genInOrder t ds ks c = .error .invalidArg) ∧
    (0 < c → (ds = none ∨ ks = none) → genInOrder t ds ks c = .error .nullArg) ∧
    (c = 0 → genInOrder t ds ks c = .ok t) := by
  refine ⟨?_, ?_, ?_⟩
  · intro h
    simp [genInOrder, h]
  · intro hc hnull
    unfold genInOrder
    rw [if_neg (by omega), if_neg (by omega)]
    rcases hnull with h | h
    · subst h
      cases ks <;> rfl
    · subst h
      cases ds <;> rfl
  · intro h
    subst h
    simp [genInOrder]

/-- Witness for the amended C9 theorem at concrete calls. -/
theorem C9_amended_argument_checks_witness :
    genInOrder (emptyTree : TreeS Int) none none (-1) = .error .invalidArg ∧
    genInOrder (emptyTree : TreeS Int) none (some [1]) 1 = .error .nullArg ∧
    genInOrder (emptyTree : TreeS Int) (some [2]) (some [1]) 0 = .ok emptyTree :=
  ⟨(C9_amended_argument_checks Int emptyTree none none (-1)).1 (by norm_num),
   (C9_amended_argument_checks Int emptyTree none (some [1]) 1).2.1 (by norm_num)
     (Or.inl rfl),
   (C9_amended_argument_checks Int emptyTree (some [2]) (some [1]) 0).2.2 rfl⟩

/-- Claim C4 — amended.  For a well-formed tree and N sorted pairs (N > 0),
the bulk load always produces a tree whose in-order traversal reproduces
exactly the N pairs in order and whose stored size is N; the existing tree is
discarded and rebuilt — with height equal to the minimal height whose perfect
tree admits at least N nodes — only when the current element count differs
from N.  When the current count already equals N, the existing shape is kept
(only keys and data are restamped in-order) and the height stays whatever the
prior tree's height was. -/
theorem C4_amended_bulk_rebuild (V : Type) [Inhabited V] (t : TreeS V)
    (ks : List Int) (ds : List V) (n : Int)
    (hWF : TreeWF t) (hsort : List.Sorted (· < ·) ks) (hn : 0 < n)
    (hk : ks.length = n.toNat) (hd : ds.length = n.toNat) :
    ∃ t2, genInOrder t (some ds) (some ks) n = .ok t2 ∧
      inorder t2.root = ks.zip ds ∧
      t2.size = n ∧ TreeWF t2 ∧
      (t.size ≠ n → trueHeight t2.root = getTreeHeightByNodesCount n.toNat) ∧
      (t.size = n → trueHeight t2.root = trueHeight t.root) := by
  have hnn : (n.toNat : Int) = n := Int.toNat_of_nonneg (by omega)
  have hplen : (ks.zip ds).length = n.toNat := by
    rw [List.length_zip, hk, hd]
    simp
  have hkeys : (ks.zip ds).map Prod.fst = ks := List.map_fst_zip ks ds (by omega)
  have hroot : (t.size = n) → nodesCount t.root = n.toNat := by
    intro he
    have h1 : t.size = ((inorder t.root).length : Int) := hWF.2
    rw [length_inorder] at h1
    omega
  simp only [genInOrder]
  rw [if_neg (by omega : ¬ n < 0), if_neg (by omega : ¬ n = 0)]
  by_cases hsz : t.size ≠ n
  · rw [if_pos hsz]
    obtain ⟨f1, f2, f3⟩ := heightFor_spec n.toNat (by omega)
    have hperf : isPerfect (getTreeHeightByNodesCount n.toNat)
        (blankTree (getTreeHeightByNodesCount n.toNat) : NodeT V) :=
      blankTree_perfect _
    have hH : getTreeHeightByNodesCount n.toNat =
        (getTreeHeightByNodesCount n.toNat - 1) + 1 := by omega
    have hp1n : 1 ≤ 2 ^ getTreeHeightByNodesCount n.toNat := Nat.pow_pos (by omega)
    have hp2n : 1 ≤ 2 ^ (getTreeHeightByNodesCount n.toNat - 1) := Nat.pow_pos (by omega)
    have hcastpow : ((2 ^ getTreeHeightByNodesCount n.toNat - 1 : Nat) : Int) =
        (2:Int) ^ getTreeHeightByNodesCount n.toNat - 1 := by
      rw [Nat.cast_sub hp1n]
      push_cast
      ring
    have hcastpow2 : ((2 ^ (getTreeHeightByNodesCount n.toNat - 1) - 1 : Nat) : Int) =
        (2:Int) ^ (getTreeHeightByNodesCount n.toNat - 1) - 1 := by
      rw [Nat.cast_sub hp2n]
      push_cast
      ring
    have hpowrel : (2:Int) ^ getTreeHeightByNodesCount n.toNat =
        2 * 2 ^ (getTreeHeightByNodesCount n.toNat - 1) := by
      conv_lhs => rw [hH]
      rw [pow_succ]
      ring
    have hlc : ((leafCount (getTreeHeightByNodesCount n.toNat) : Nat) : Int) =
        (2:Int) ^ (getTreeHeightByNodesCount n.toNat - 1) := by
      conv_lhs => rw [hH]
      simp only [leafCount]
      push_cast
      ring
    have hreq : n ≤ (2:Int) ^ getTreeHeightByNodesCount n.toNat - 1 := by
      have h1 : ((n.toNat : Nat) : Int) ≤
          ((2 ^ getTreeHeightByNodesCount n.toNat - 1 : Nat) : Int) := Nat.cast_le.mpr f1
      rw [hcastpow, hnn] at h1
      exact h1
    have hf2i : (2:Int) ^ (getTreeHeightByNodesCount n.toNat - 1) - 1 < n := by
      have h1 : ((2 ^ (getTreeHeightByNodesCount n.toNat - 1) - 1 : Nat) : Int) <
          ((n.toNat : Nat) : Int) := Nat.cast_lt.mpr f2
      rw [hcastpow2, hnn] at h1
      exact h1
    obtain ⟨e2, ec, eh⟩ :=
      trim_perfect (getTreeHeightByNodesCount n.toNat) (blankTree _) hperf
        ((2:Int) ^ getTreeHeightByNodesCount n.toNat - 1) n hreq
    have hminval : min (((2:Int) ^ getTreeHeightByNodesCount n.toNat - 1) - n)
        ((leafCount (getTreeHeightByNodesCount n.toNat) : Nat) : Int) =
        ((2:Int) ^ getTreeHeightByNodesCount n.toNat - 1) - n := by
      rw [hlc]
      omega
    have pr2 : (trimT (blankTree (getTreeHeightByNodesCount n.toNat) : NodeT V)
        ((2:Int) ^ getTreeHeightByNodesCount n.toNat - 1) n).2 = n := by
      rw [e2, hminval]
      ring
    have prcount : nodesCount (trimT (blankTree (getTreeHeightByNodesCount n.toNat) : NodeT V)
        ((2:Int) ^ getTreeHeightByNodesCount n.toNat - 1) n).1 = n.toNat := by
      have h1 := ec
      rw [hminval] at h1
      have h2 : (nodesCount (trimT (blankTree (getTreeHeightByNodesCount n.toNat) : NodeT V)
          ((2:Int) ^ getTreeHeightByNodesCount n.toNat - 1) n).1 : Int) = (n.toNat : Int) := by
        rw [h1, hnn]
        ring
      exact_mod_cast h2
    have prheight : trueHeight (trimT (blankTree (getTreeHeightByNodesCount n.toNat) : NodeT V)
        ((2:Int) ^ getTreeHeightByNodesCount n.toNat - 1) n).1 =
        getTreeHeightByNodesCount n.toNat := by
      rw [eh, if_neg ?hcond]
      case hcond =>
        rw [hminval, hlc]
        omega
    obtain ⟨fi, fd, fh, fc⟩ :=
      fillT_spec (trimT (blankTree (getTreeHeightByNodesCount n.toNat) : NodeT V)
          ((2:Int) ^ getTreeHeightByNodesCount n.toNat - 1) n).1 (ks.zip ds)
        (by rw [prcount, hplen])
    refine ⟨_, rfl, ?_, ?_, ?_, ?_, ?_⟩
    · rw [fi, prcount, ← hplen, List.take_length]
    · show t.size - (nodesCount t.root : Int) + (nodesCount (blankTree
          (getTreeHeightByNodesCount n.toNat) : NodeT V) : Int) -
        (((2:Int) ^ getTreeHeightByNodesCount n.toNat - 1) - _) = n
      rw [pr2, nodesCount_perfect _ _ hperf, hcastpow]
      have h1 : t.size = (nodesCount t.root : Int) := by
        rw [← length_inorder]
        exact hWF.2
      omega
    · constructor
      · show List.Sorted (· < ·) ((inorder _).map Prod.fst)
        rw [fi, prcount, ← hplen, List.take_length, hkeys]
        exact hsort
      · show _ = ((inorder _).length : Int)
        rw [fi, prcount, ← hplen, List.take_length, hplen, hnn]
        show t.size - (nodesCount t.root : Int) + (nodesCount (blankTree
            (getTreeHeightByNodesCount n.toNat) : NodeT V) : Int) -
          (((2:Int) ^ getTreeHeightByNodesCount n.toNat - 1) - _) = n
        rw [pr2, nodesCount_perfect _ _ hperf, hcastpow]
        have h1 : t.size = (nodesCount t.root : Int) := by
          rw [← length_inorder]
          exact hWF.2
        omega
    · intro _
      rw [fh, prheight]
    · intro he
      exact absurd he hsz
  · rw [if_neg hsz]
    have heq : t.size = n := by omega
    have hroot2 : nodesCount t.root = n.toNat := hroot heq
    obtain ⟨fi, fd, fh, fc⟩ := fillT_spec t.root (ks.zip ds) (by rw [hroot2, hplen])
    refine ⟨_, rfl, ?_, ?_, ?_, ?_, ?_⟩
    · rw [fi, hroot2, ← hplen, List.take_length]
    · exact heq
    · constructor
      · show List.Sorted (· < ·) ((inorder _).map Prod.fst)
        rw [fi, hroot2, ← hplen, List.take_length, hkeys]
        exact hsort
      · show t.size = ((inorder _).length : Int)
        rw [fi, hroot2, ← hplen, List.take_length, hplen, hnn]
        exact heq
    · intro he
      exact absurd heq he
    · intro _
      exact fh

/-- Witness for the amended C4 theorem: bulk-loading three sorted pairs into
an empty tree. -/
theorem C4_amended_bulk_rebuild_witness :
    ∃ t2, genInOrder (emptyTree : TreeS Int) (some [10, 20, 30]) (some [1, 2, 3]) 3 =
        .ok t2 ∧
      inorder t2.root = [1, 2, 3].zip [10, 20, 30] ∧
      t2.size = 3 ∧ TreeWF t2 ∧
      ((emptyTree : TreeS Int).size ≠ 3 →
        trueHeight t2.root = getTreeHeightByNodesCount (3 : Int).toNat) ∧
      ((emptyTree : TreeS Int).size = 3 → trueHeight t2.root = trueHeight (emptyTree : TreeS Int).root) :=
  C4_amended_bulk_rebuild Int emptyTree [1, 2, 3] [10, 20, 30] 3 emptyTree_wf
    (by decide) (by norm_num) rfl rfl

/-- Claim C4 — counterexample.  A pre-existing tree of six nodes (built by the
buggy inserts, of true height 4) bulk-loaded with six sorted pairs keeps its
shape — `generateInOrder` skips the rebuild because the stored size equals
the count — so the resulting height is 4, while the minimal height admitting
six nodes is 3: the claim's "discards the existing tree … height equals the
minimal height" fails. -/
theorem C4_cex_same_size_skips_rebuild :
    (genInOrder (insertList [4, 2, 6, 1, 3, 0]) (some [0, 0, 0, 0, 0, 0])
        (some [10, 20, 30, 40, 50, 60]) 6).map (fun t2 => trueHeight t2.root) =
      .ok 4 ∧
    getTreeHeightByNodesCount 6 = 3 := by
  constructor
  · rfl
  · show heightForGo 6 0 = 3
    rw [heightForGo]
    norm_num
    rw [heightForGo]
    norm_num
    rw [heightForGo]
    norm_num
    rw [heightForGo]
    norm_num

/-! Hash routing and bucket-array helpers. -/

theorem hashF_range (k : Int) {sz : Int} (hsz : 0 < sz) :
    0 ≤ hashF sz k ∧ hashF sz k < sz := by
  have hlow : -sz < Int.tmod k sz := by
    rcases k with m | m
    · exact lt_of_lt_of_le (by omega) (Int.tmod_nonneg sz (Int.ofNat_nonneg m))
    · lift sz to ℕ using hsz.le with n
      have he : (Int.negSucc m).tmod (n : Int) = -(((m : Int) + 1) % (n : Int)) := rfl
      rw [he]
      have h1 : ((m : Int) + 1) % (n : Int) < (n : Int) :=
        Int.emod_lt_of_pos ((m : Int) + 1) (by exact_mod_cast hsz)
      have h2 : (0 : Int) ≤ ((m : Int) + 1) % (n : Int) :=
        Int.emod_nonneg _ hsz.ne'
      omega
  have hup : Int.tmod k sz < sz := Int.tmod_lt_of_pos k hsz
  simp only [hashF]
  by_cases h : 0 ≤ Int.tmod k sz
  · rw [if_pos h]
    exact ⟨h, hup⟩
  · rw [if_neg h]
    constructor <;> omega

theorem getD_set_self {α : Type} :
    ∀ (bs : List α) (i : Nat) (x d : α), i < bs.length → (bs.set i x).getD i d = x
  | [], i, x, d, h => by simp at h
  | a :: bs, 0, x, d, _ => rfl
  | a :: bs, i + 1, x, d, h => by
      simp only [List.set_cons_succ, List.getD_cons_succ]
      exact getD_set_self bs i x d (by simpa using h)

theorem getD_set_ne {α : Type} :
    ∀ (bs : List α) (i j : Nat) (x d : α), i ≠ j → (bs.set i x).getD j d = bs.getD j d
  | [], _, _, _, _, _ => by simp
  | a :: bs, 0, 0, x, d, h => absurd rfl h
  | a :: bs, 0, j + 1, x, d, _ => rfl
  | a :: bs, i + 1, 0, x, d, _ => rfl
  | a :: bs, i + 1, j + 1, x, d, h => by
      simp only [List.set_cons_succ, List.getD_cons_succ]
      exact getD_set_ne bs i j x d (by omega)

theorem getD_map_list {α β : Type} (f : α → β) :
    ∀ (bs : List α) (i : Nat) (d : α), (bs.map f).getD i (f d) = f (bs.getD i d)
  | [], _, _ => rfl
  | a :: bs, 0, d => rfl
  | a :: bs, i + 1, d => getD_map_list f bs i d

theorem flatten_set_perm {β : Type} :
    ∀ (ls : List (List β)) (i : Nat) (x : List β) (a : β), i < ls.length →
      x.Perm (a :: ls.getD i []) →
      ((ls.set i x).flatten).Perm (a :: ls.flatten)
  | [], i, _, _, h, _ => by simp at h
  | l :: ls, 0, x, a, _, hx => by
      simp only [List.getD_cons_zero] at hx
      simp only [List.set_cons_zero, List.flatten_cons]
      exact hx.append_right ls.flatten
  | l :: ls, i + 1, x, a, h, hx => by
      simp only [List.getD_cons_succ] at hx
      simp only [List.set_cons_succ, List.flatten_cons]
      have hrec := flatten_set_perm ls i x a (by simpa using h) hx
      exact (hrec.append_left l).trans List.perm_middle


/-! Characterizations of the tree operations used by the map. -/

theorem treeInsert_ok_inorder (t : TreeS V) (k : Int) (v : V)
    (hWF : TreeWF t) (hm : k ∉ keysOf t.root) :
    (treeInsertOp t k v).1 = .ok () ∧
    inorder (treeInsertOp t k v).2.root = insOrd k v (inorder t.root) := by
  unfold treeInsertOp
  by_cases he : treeEmpty t
  · rw [if_pos he]
    obtain ⟨hr, _⟩ := treeEmpty_wf hWF he
    refine ⟨rfl, ?_⟩
    show inorder (NodeT.node .nil k v 0 0 .nil) = _
    rw [hr]
    simp [inorder, insOrd]
  · rw [if_neg he, findNode_none_of_not_mem hm]
    exact ⟨rfl, insRec_inorder k v t.root hWF.1 hm⟩

theorem treeInsert_err_of_mem (t : TreeS V) (k : Int) (v : V)
    (hWF : TreeWF t) (hm : k ∈ keysOf t.root) :
    treeInsertOp t k v = (.error .keyAlreadyExists, t) := by
  unfold treeInsertOp
  have hne : ¬ treeEmpty t = true := by
    intro he
    obtain ⟨hr, _⟩ := treeEmpty_wf hWF he
    rw [hr] at hm
    simp [keysOf, inorder] at hm
  rw [if_neg hne]
  have hs := findNode_isSome_of_mem hWF.1 hm
  obtain ⟨n, hn⟩ := Option.isSome_iff_exists.mp hs
  rw [hn]

theorem treeDelete_ok_inorder (t : TreeS V) (k : Int)
    (hWF : TreeWF t) (hm : k ∈ keysOf t.root) :
    (treeDeleteOp t k).1 = .ok () ∧
    inorder (treeDeleteOp t k).2.root = eraseKey k (inorder t.root) ∧
    (treeDeleteOp t k).2.size = t.size - 1 := by
  unfold treeDeleteOp
  have hs := findNode_isSome_of_mem hWF.1 hm
  obtain ⟨n, hn⟩ := Option.isSome_iff_exists.mp hs
  rw [hn]
  refine ⟨rfl, ?_, rfl⟩
  show inorder (if t.size - 1 = 0 then NodeT.nil else delRec t.root k) = _
  by_cases hz : t.size - 1 = 0
  · rw [if_pos hz]
    have hlen : (inorder t.root).length = 1 := by
      have h2 := hWF.2
      omega
    obtain ⟨p, hp⟩ := List.length_eq_one.mp hlen
    have hkp : p.1 = k := by
      rw [keysOf, hp] at hm
      have hkp2 : k = p.1 := by simpa using hm
      exact hkp2.symm
    rw [hp]
    obtain ⟨p1, p2⟩ := p
    simp only [eraseKey, inorder]
    rw [if_pos hkp]
  · rw [if_neg hz]
    exact delRec_inorder_aux (nodesCount t.root) t.root k le_rfl hWF.1 hm

theorem treeDelete_err_of_not_mem (t : TreeS V) (k : Int)
    (hm : k ∉ keysOf t.root) :
    treeDeleteOp t k = (.error .keyNotFound, t) := by
  unfold treeDeleteOp
  rw [findNode_none_of_not_mem hm]

/-! Bucket structure of the map. -/

theorem bucket_mem_allPairs {m : MapS V} {i : Nat} (hi : i < m.buckets.length)
    {pr : Int × Nat} (hpr : pr ∈ inorder (bucketAt m i).root) :
    pr ∈ allPairsM m := by
  rw [allPairsM, List.mem_flatten]
  refine ⟨inorder (bucketAt m i).root, ?_, hpr⟩
  apply List.mem_map_of_mem
  rw [bucketAt, List.getD_eq_getElem _ _ hi]
  exact List.getElem_mem hi

theorem allPairs_to_bucket {m : MapS V} {pr : Int × Nat} (hpr : pr ∈ allPairsM m) :
    ∃ i, i < m.buckets.length ∧ pr ∈ inorder (bucketAt m i).root := by
  rw [allPairsM, List.mem_flatten] at hpr
  obtain ⟨l, hl, hprl⟩ := hpr
  rw [List.mem_map] at hl
  obtain ⟨b, hb, rfl⟩ := hl
  obtain ⟨i, hi, rfl⟩ := List.getElem_of_mem hb
  exact ⟨i, hi, by rwa [bucketAt, List.getD_eq_getElem _ _ hi]⟩

theorem bucketAt_wf {m : MapS V} (hsh : MapShape m) (i : Nat) :
    TreeWF (bucketAt m i) := by
  by_cases hi : i < m.buckets.length
  · apply hsh.2.2.2.1
    rw [bucketAt, List.getD_eq_getElem _ _ hi]
    exact List.getElem_mem hi
  · rw [bucketAt, List.getD_eq_default _ _ (by omega)]
    exact emptyTree_wf

theorem mapContains_false_of_not_mem {m : MapS V} {k : Int}
    (hm : k ∉ mapKeys m) : mapContains m k = false := by
  rw [mapContains]
  cases hf : findNode (bucketAt m (hashF m.sz k).toNat).root k with
  | none => rfl
  | some n =>
    exfalso
    have hkmem := mem_of_findNode_some hf
    by_cases hi : (hashF m.sz k).toNat < m.buckets.length
    · rw [keysOf, List.mem_map] at hkmem
      obtain ⟨pr, hpr, hprk⟩ := hkmem
      apply hm
      rw [mapKeys, List.mem_map]
      exact ⟨pr, bucket_mem_allPairs hi hpr, hprk⟩
    · rw [bucketAt, List.getD_eq_default _ _ (by omega)] at hkmem
      simp [emptyTree, keysOf, inorder] at hkmem

theorem mapContains_true_of_mem {m : MapS V} {k : Int}
    (hsh : MapShape m) (hm : k ∈ mapKeys m) : mapContains m k = true := by
  rw [mapKeys, List.mem_map] at hm
  obtain ⟨pr, hpr, hprk⟩ := hm
  obtain ⟨i, hi, hbmem⟩ := allPairs_to_bucket hpr
  have hhash := hsh.2.2.2.2 i hi pr hbmem
  have hidx : (hashF m.sz k).toNat = i := by
    rw [← hprk, hhash]
    simp
  rw [mapContains, hidx]
  have hkmem : k ∈ keysOf (bucketAt m i).root := by
    rw [keysOf, List.mem_map]
    exact ⟨pr, hbmem, hprk⟩
  exact findNode_isSome_of_mem (bucketAt_wf hsh i).1 hkmem

theorem mapKeys_nodup {m : MapS V} (hsh : MapShape m) : (mapKeys m).Nodup := by
  obtain ⟨hlen, hsz, hcnt, hwfb, hhome⟩ := hsh
  rw [mapKeys, allPairsM, List.map_flatten, List.map_map]
  rw [List.nodup_flatten]
  constructor
  · intro l hl
    rw [List.mem_map] at hl
    obtain ⟨b, hb, rfl⟩ := hl
    exact ((hwfb b hb).1).nodup
  · rw [List.pairwise_iff_getElem]
    intro i j hi hj hij
    simp only [List.length_map] at hi hj
    simp only [List.getElem_map]
    intro x hx hy
    have hbi : m.buckets[i] = bucketAt m i := by
      rw [bucketAt, List.getD_eq_getElem _ _ hi]
    have hbj : m.buckets[j] = bucketAt m j := by
      rw [bucketAt, List.getD_eq_getElem _ _ hj]
    simp only [Function.comp, hbi, hbj] at hx hy
    rw [List.mem_map] at hx hy
    obtain ⟨p1, hp1, hk1⟩ := hx
    obtain ⟨p2, hp2, hk2⟩ := hy
    have h1 := hhome i hi p1 hp1
    have h2 := hhome j hj p2 hp2
    rw [hk1] at h1
    rw [hk2] at h2
    rw [h1] at h2
    omega

/-- The reinsertion loop of `Resize` succeeds on key-distinct pairs that are
not yet present, preserves array length and bucket well-formedness, homes
every pair by the new hash, counts exactly the pairs it inserts, and the
final pair multiset is the input pairs plus what the array already held. -/
theorem reinsertAll_spec (newsz : Int) (hsz : 0 < newsz) :
    ∀ (ps : List (Int × Nat)) (bs : List (TreeS Nat)) (c : Int),
      (ps.map Prod.fst).Nodup →
      bs.length = newsz.toNat →
      (∀ b ∈ bs, TreeWF b) →
      (∀ i, i < bs.length → ∀ pr ∈ inorder (bs.getD i emptyTree).root,
        hashF newsz pr.1 = (i : Int)) →
      (∀ pr ∈ ps, pr.1 ∉ ((bs.map fun b => inorder b.root).flatten.map Prod.fst)) →
      ∃ bs2 c2, reinsertAll newsz ps bs c = .ok (bs2, c2) ∧
        bs2.length = bs.length ∧
        c2 = c + ps.length ∧
        (∀ b ∈ bs2, TreeWF b) ∧
        (∀ i, i < bs2.length → ∀ pr ∈ inorder (bs2.getD i emptyTree).root,
          hashF newsz pr.1 = (i : Int)) ∧
        ((bs2.map fun b => inorder b.root).flatten).Perm
          (ps ++ (bs.map fun b => inorder b.root).flatten) := by
  intro ps
  induction ps with
  | nil =>
    intro bs c _ _ hwf hhome _
    exact ⟨bs, c, rfl, rfl, by simp, hwf, hhome, by simp⟩
  | cons hd rest ih =>
    obtain ⟨k, p⟩ := hd
    intro bs c hnd hlen hwf hhome hsep
    have hrange := hashF_range k hsz
    have hidx : (hashF newsz k).toNat < bs.length := by
      rw [hlen]
      omega
    have hidxi : ((hashF newsz k).toNat : Int) = hashF newsz k :=
      Int.toNat_of_nonneg hrange.1
    have hbmem : bs.getD (hashF newsz k).toNat emptyTree ∈ bs := by
      rw [List.getD_eq_getElem _ _ hidx]
      exact List.getElem_mem hidx
    have hbwf : TreeWF (bs.getD (hashF newsz k).toNat emptyTree) := hwf _ hbmem
    have hknotin : k ∉ keysOf (bs.getD (hashF newsz k).toNat emptyTree).root := by
      intro hmem
      apply hsep (k, p) (List.mem_cons_self _ _)
      rw [keysOf, List.mem_map] at hmem
      obtain ⟨q, hq, hqk⟩ := hmem
      rw [List.mem_map]
      refine ⟨q, ?_, hqk⟩
      rw [List.mem_flatten]
      exact ⟨inorder (bs.getD (hashF newsz k).toNat emptyTree).root,
        List.mem_map_of_mem _ hbmem, hq⟩
    obtain ⟨hok, hio⟩ :=
      treeInsert_ok_inorder (bs.getD (hashF newsz k).toNat emptyTree) k p hbwf hknotin
    have hwf2 := treeInsert_wf (bs.getD (hashF newsz k).toNat emptyTree) k p hbwf
    have hgd : (bs.map fun b => inorder b.root).getD (hashF newsz k).toNat [] =
        inorder (bs.getD (hashF newsz k).toNat emptyTree).root :=
      getD_map_list _ bs _ emptyTree
    have hpermx : (inorder (treeInsertOp
          (bs.getD (hashF newsz k).toNat emptyTree) k p).2.root).Perm
        ((k, p) :: (bs.map fun b => inorder b.root).getD (hashF newsz k).toNat []) := by
      rw [hio, hgd]
      exact insOrd_perm k p _
    have hperm1 : (((bs.set (hashF newsz k).toNat
          (treeInsertOp (bs.getD (hashF newsz k).toNat emptyTree) k p).2).map
            fun b => inorder b.root).flatten).Perm
        ((k, p) :: (bs.map fun b => inorder b.root).flatten) := by
      rw [List.map_set]
      exact flatten_set_perm _ _ _ _ (by simpa using hidx) hpermx
    have hnd2 : (rest.map Prod.fst).Nodup := by
      have hx : (k :: rest.map Prod.fst).Nodup := by simpa using hnd
      exact (List.nodup_cons.mp hx).2
    have hknotrest : k ∉ rest.map Prod.fst := by
      have hx : (k :: rest.map Prod.fst).Nodup := by simpa using hnd
      exact (List.nodup_cons.mp hx).1
    obtain ⟨bs2, c2, hrun, hlen2, hc2, hwfs2, hhome2, hperm2⟩ :=
      ih (bs.set (hashF newsz k).toNat
          (treeInsertOp (bs.getD (hashF newsz k).toNat emptyTree) k p).2) (c + 1)
        hnd2
        (by rw [List.length_set]; exact hlen)
        (by
          intro b hb
          rcases List.mem_or_eq_of_mem_set hb with hb2 | hb2
          · exact hwf b hb2
          · rw [hb2]; exact hwf2)
        (by
          intro i hi pr hpr
          rw [List.length_set] at hi
          by_cases hieq : i = (hashF newsz k).toNat
          · subst hieq
            rw [getD_set_self _ _ _ _ hidx] at hpr
            have hpr2 := hpermx.mem_iff.mp hpr
            rcases List.mem_cons.mp hpr2 with rfl | hpr3
            · rw [hidxi]
            · rw [hgd] at hpr3
              exact hhome _ hidx pr hpr3
          · rw [getD_set_ne _ _ _ _ _ (fun hh => hieq hh.symm)] at hpr
            exact hhome i hi pr hpr)
        (by
          intro pr hpr hmem
          have hmem2 : pr.1 ∈ ((k, p) ::
              (bs.map fun b => inorder b.root).flatten).map Prod.fst :=
            (hperm1.map Prod.fst).mem_iff.mp hmem
          rcases List.mem_cons.mp hmem2 with he | he
          · apply hknotrest
            have he2 : pr.1 = k := he
            rw [← he2]
            exact List.mem_map_of_mem _ hpr
          · exact hsep pr (List.mem_cons_of_mem _ hpr) he)
    refine ⟨bs2, c2, ?_, ?_, ?_, hwfs2, hhome2, ?_⟩
    · show reinsertAll newsz ((k, p) :: rest) bs c = _
      rw [reinsertAll]
      cases htio : treeInsertOp (bs.getD (hashF newsz k).toNat emptyTree) k p with
      | mk res b2 =>
        rw [htio] at hok
        simp only at hok
        subst hok
        rw [htio] at hrun
        exact hrun
    · rw [hlen2, List.length_set]
    · rw [hc2]
      simp only [List.length_cons]
      omega
    · refine hperm2.trans ((hperm1.append_left rest).trans ?_)
      exact List.perm_middle

theorem flatten_replicate_nil {β : Type} :
    ∀ n : Nat, (List.replicate n ([] : List β)).flatten = []
  | 0 => rfl
  | n + 1 => by
      rw [List.replicate_succ, List.flatten_cons, flatten_replicate_nil n]
      rfl

/-- The drain-and-reinsert core of `Resize`, run against a fresh bucket array
of any positive capacity: it succeeds, rebuilds a structurally well-formed
map of that capacity holding a permutation of the original pairs, and the
recount equals the original count. -/
theorem resize_inner (m : MapS V) (newsz : Int) (hsh : MapShape m)
    (hpos : 0 < newsz) :
    ∃ bs2 c2,
      reinsertAll newsz (drainPairs m.buckets)
        (List.replicate newsz.toNat emptyTree) 0 = .ok (bs2, c2) ∧
      MapShape (⟨bs2, newsz, c2, m.next, m.heap⟩ : MapS V) ∧
      (allPairsM (⟨bs2, newsz, c2, m.next, m.heap⟩ : MapS V)).Perm (allPairsM m) ∧
      c2 = m.cnt := by
  have hnd : ((drainPairs m.buckets).map Prod.fst).Nodup := mapKeys_nodup hsh
  have hflat : ((List.replicate newsz.toNat (emptyTree : TreeS Nat)).map
      fun b => inorder b.root).flatten = [] := by
    rw [List.map_replicate]
    exact flatten_replicate_nil _
  obtain ⟨bs2, c2, hrun, hlen2, hc2, hwfs2, hhome2, hperm2⟩ :=
    reinsertAll_spec newsz hpos (drainPairs m.buckets)
      (List.replicate newsz.toNat emptyTree) 0
      hnd
      (by rw [List.length_replicate])
      (by
        intro b hb
        rw [List.eq_of_mem_replicate hb]
        exact emptyTree_wf)
      (by
        intro i hi pr hpr
        rw [List.length_replicate] at hi
        rw [List.getD_eq_getElem _ _ (by simpa using hi)] at hpr
        rw [List.getElem_replicate] at hpr
        simp [emptyTree, inorder] at hpr)
      (by
        intro pr hpr hmem
        rw [hflat] at hmem
        simp at hmem)
  rw [hflat, List.append_nil] at hperm2
  have hlens : (allPairsM (⟨bs2, newsz, c2, m.next, m.heap⟩ : MapS V)).length =
      (allPairsM m).length := hperm2.length_eq
  have hcntm := hsh.2.2.1
  have hlp : (drainPairs m.buckets).length = (allPairsM m).length := rfl
  refine ⟨bs2, c2, hrun, ⟨?_, hpos, ?_, hwfs2, ?_⟩, hperm2, ?_⟩
  · rw [hlen2, List.length_replicate]
  · show c2 = _
    rw [hlens, hc2, hlp]
    omega
  · intro i hi pr hpr
    exact hhome2 i hi pr hpr
  · rw [hc2, hcntm, hlp]
    omega

/-- `HashMap::Resize` on a structurally well-formed map of capacity `10·2^j`:
the shrink at capacity 10 is a no-op, otherwise the capacity doubles or
halves; the result is well-formed of capacity again `10·2^j`, holds exactly
the original (key, pointer) pairs up to order, and leaves the count, the
allocation cursor and the heap unchanged. -/
theorem mapResize_spec (m : MapS V) (inc : Bool) (hsh : MapShape m)
    (hcap : ∃ j : Nat, m.sz = 10 * 2 ^ j) :
    ∃ m2 : MapS V, mapResize m inc = .ok m2 ∧
      MapShape m2 ∧
      (∃ j2 : Nat, m2.sz = 10 * 2 ^ j2) ∧
      (allPairsM m2).Perm (allPairsM m) ∧
      m2.cnt = m.cnt ∧ m2.next = m.next ∧ m2.heap = m.heap ∧
      (inc = true → m2.sz = m.sz * 2) ∧
      (inc = false → m.sz = 10 → m2 = m) ∧
      (inc = false → m.sz ≠ 10 → m2.sz = m.sz.tdiv 2) := by
  obtain ⟨j, hj⟩ := hcap
  cases inc with
  | false =>
    by_cases h10 : m.sz = 10
    · refine ⟨m, ?_, hsh, ⟨j, hj⟩, List.Perm.refl _, rfl, rfl, rfl, ?_, ?_, ?_⟩
      · rw [mapResize, if_pos ⟨rfl, h10⟩]
      · intro h
        exact absurd h (by decide)
      · intro _ _
        rfl
      · intro _ h
        exact absurd h10 h
    · have hj1 : ∃ j' : Nat, j = j' + 1 := by
        cases j with
        | zero => exact absurd (by simpa using hj) h10
        | succ j' => exact ⟨j', rfl⟩
      obtain ⟨j', rfl⟩ := hj1
      have htd : m.sz.tdiv 2 = 10 * 2 ^ j' := by
        rw [hj, pow_succ]
        rw [show (10 : Int) * (2 ^ j' * 2) = 2 * (10 * 2 ^ j') by ring]
        exact Int.mul_tdiv_cancel_left _ (by norm_num)
      have hpos : 0 < m.sz.tdiv 2 := by rw [htd]; positivity
      obtain ⟨bs2, c2, hrun, hshape2, hperm, hcnt⟩ :=
        resize_inner m (m.sz.tdiv 2) hsh hpos
      refine ⟨⟨bs2, m.sz.tdiv 2, c2, m.next, m.heap⟩, ?_, hshape2, ⟨j', htd⟩,
        hperm, hcnt, rfl, rfl, ?_, ?_, ?_⟩
      · rw [mapResize]
        rw [if_neg (fun hc => h10 hc.2)]
        simp only [Bool.false_eq_true, if_false]
        rw [hrun]
      · intro h
        exact absurd h (by decide)
      · intro _ h
        exact absurd h h10
      · intro _ _
        rfl
  | true =>
    have hpos : 0 < m.sz * 2 := by
      have := hsh.2.1
      omega
    obtain ⟨bs2, c2, hrun, hshape2, hperm, hcnt⟩ :=
      resize_inner m (m.sz * 2) hsh hpos
    refine ⟨⟨bs2, m.sz * 2, c2, m.next, m.heap⟩, ?_, hshape2,
      ⟨j + 1, by rw [hj]; ring⟩, hperm, hcnt, rfl, rfl, ?_, ?_, ?_⟩
    · rw [mapResize]
      rw [if_neg (fun hc => absurd hc.1 (by decide))]
      simp only [eq_self_iff_true, if_true]
      rw [hrun]
    · intro _
      rfl
    · intro h
      exact absurd h (by decide)
    · intro h
      exact absurd h (by decide)

theorem eraseKey_perm_of_mem (k : Int) :
    ∀ l : List (Int × V), k ∈ l.map Prod.fst →
      ∃ p : V, (k, p) ∈ l ∧ l.Perm ((k, p) :: eraseKey k l)
  | [], h => by simp at h
  | (a, b) :: rest, h => by
      by_cases ha : a = k
      · subst ha
        exact ⟨b, by simp, by simp [eraseKey]⟩
      · have hk : k ∈ rest.map Prod.fst := by
          simp only [List.map_cons, List.mem_cons] at h
          exact h.resolve_left (fun hh => ha hh.symm)
        obtain ⟨p, hp, hperm⟩ := eraseKey_perm_of_mem k rest hk
        refine ⟨p, List.mem_cons_of_mem _ hp, ?_⟩
        simp only [eraseKey, if_neg ha]
        exact (hperm.cons _).trans (List.Perm.swap _ _ _)

theorem flatten_set_perm_del {β : Type} :
    ∀ (ls : List (List β)) (i : Nat) (x : List β) (a : β), i < ls.length →
      (ls.getD i []).Perm (a :: x) →
      (a :: (ls.set i x).flatten).Perm ls.flatten
  | [], i, _, _, h, _ => by simp at h
  | l :: ls, 0, x, a, _, hx => by
      simp only [List.getD_cons_zero] at hx
      simp only [List.set_cons_zero, List.flatten_cons]
      exact (hx.append_right ls.flatten).symm
  | l :: ls, i + 1, x, a, h, hx => by
      simp only [List.getD_cons_succ] at hx
      simp only [List.set_cons_succ, List.flatten_cons]
      have hrec := flatten_set_perm_del ls i x a (by simpa using h) hx
      exact List.perm_middle.symm.trans (hrec.append_left l)

/-- `loadFactorCheckAndResize` run just after a single insert or delete on a
well-formed map (the counters are within one operation of the steady-state
band): it succeeds, preserves the pair multiset, count, cursor and heap,
keeps the capacity of the form `10·2^j`, re-establishes the steady-state
band, and whenever it actually changed the capacity the load factor lands
strictly between 1/4 and 3/4. -/
theorem loadCheck_spec (m : MapS V) (hsh : MapShape m)
    (hcap : ∃ j : Nat, m.sz = 10 * 2 ^ j)
    (hpre1 : 4 * m.cnt < 3 * m.sz + 4)
    (hpre2 : m.sz = 10 ∨ m.sz < 4 * m.cnt + 4) :
    ∃ m2 : MapS V, loadCheck m = .ok m2 ∧ MapShape m2 ∧
      (∃ j2 : Nat, m2.sz = 10 * 2 ^ j2) ∧
      (allPairsM m2).Perm (allPairsM m) ∧
      m2.cnt = m.cnt ∧ m2.next = m.next ∧ m2.heap = m.heap ∧
      4 * m2.cnt < 3 * m2.sz ∧ (m2.sz = 10 ∨ m2.sz < 4 * m2.cnt) ∧
      (m2.sz ≠ m.sz → m2.sz < 4 * m2.cnt ∧ 4 * m2.cnt < 3 * m2.sz) := by
  obtain ⟨j, hj⟩ := hcap
  have h2j : (0 : Int) < 2 ^ j := by positivity
  have hsz10 : 10 ≤ m.sz := by
    rw [hj]
    omega
  rw [loadCheck]
  by_cases hg : 3 * m.sz ≤ 4 * m.cnt
  · rw [if_pos hg]
    obtain ⟨m2, hok, hsh2, hcap2, hperm, hcnt, hnext, hheap, hgrow, _, _⟩ :=
      mapResize_spec m true hsh ⟨j, hj⟩
    have hsz2 : m2.sz = m.sz * 2 := hgrow rfl
    refine ⟨m2, hok, hsh2, hcap2, hperm, hcnt, hnext, hheap, ?_, ?_, ?_⟩
    · rw [hcnt, hsz2]
      omega
    · right
      rw [hcnt, hsz2]
      omega
    · intro _
      rw [hcnt, hsz2]
      omega
  · rw [if_neg hg]
    by_cases hs : 4 * m.cnt ≤ m.sz
    · rw [if_pos hs]
      obtain ⟨m2, hok, hsh2, hcap2, hperm, hcnt, hnext, hheap, _, hnop, hshrink⟩ :=
        mapResize_spec m false hsh ⟨j, hj⟩
      by_cases h10 : m.sz = 10
      · have hm2 : m2 = m := hnop rfl h10
        subst hm2
        refine ⟨m2, hok, hsh2, hcap2, hperm, hcnt, hnext, hheap, by omega,
          Or.inl h10, fun h => absurd rfl h⟩
      · have hj1 : ∃ j' : Nat, j = j' + 1 := by
          cases j with
          | zero => exact absurd (by simpa using hj) h10
          | succ j' => exact ⟨j', rfl⟩
        obtain ⟨j', rfl⟩ := hj1
        have h2j' : (0 : Int) < 2 ^ j' := by positivity
        have htd : m.sz.tdiv 2 = 10 * 2 ^ j' := by
          rw [hj, pow_succ]
          rw [show (10 : Int) * (2 ^ j' * 2) = 2 * (10 * 2 ^ j') by ring]
          exact Int.mul_tdiv_cancel_left _ (by norm_num)
        have hsz2 : m2.sz = 10 * 2 ^ j' := by rw [hshrink rfl h10, htd]
        have hszrel : m.sz = 2 * m2.sz := by
          rw [hsz2, hj, pow_succ]
          ring
        refine ⟨m2, hok, hsh2, hcap2, hperm, hcnt, hnext, hheap, ?_, ?_, ?_⟩
        · rw [hcnt]
          omega
        · right
          rw [hcnt, hsz2]
          rcases hpre2 with h | h
          · exact absurd h h10
          · rw [hsz2] at hszrel
            omega
        · intro _
          constructor
          · rw [hcnt, hsz2]
            rcases hpre2 with h | h
            · exact absurd h h10
            · rw [hsz2] at hszrel
              omega
          · rw [hcnt]
            omega
    · rw [if_neg hs]
      exact ⟨m, rfl, hsh, ⟨j, hj⟩, .refl _, rfl, rfl, rfl, by omega,
        Or.inr (by omega), fun h => absurd rfl h⟩

/-- `HashMap::Insert` on a duplicate key signals and leaves the map intact:
the containment check runs before any allocation or link change. -/
theorem mapInsert_err (m : MapS V) (k : Int) (v : V)
    (hc : mapContains m k = true) :
    mapInsertOp m k v = (.error .keyAlreadyExists, m) := by
  rw [mapInsertOp, if_pos hc]

/-- `HashMap::Delete` on an absent key signals and leaves the map intact. -/
theorem mapDelete_err (m : MapS V) (k : Int)
    (hc : mapContains m k = false) :
    mapDeleteOp m k = (.error .keyNotFound, m) := by
  rw [mapDeleteOp, if_pos hc]

/-- `HashMap::Insert` of a fresh key on a well-formed map: it returns the
freshly allocated pointer (the next allocation id), appends exactly one heap
cell holding a copy of the value, stores the (key, pointer) pair, bumps the
count, and the post-resize-check state is well-formed with the counters back
in the steady-state band. -/
theorem mapInsert_ok (m : MapS V) (k : Int) (v : V) (hsh : MapShape m)
    (hc : mapContains m k = false)
    (hcap : ∃ j : Nat, m.sz = 10 * 2 ^ j)
    (hband1 : 4 * m.cnt < 3 * m.sz)
    (hband2 : m.sz = 10 ∨ m.sz < 4 * m.cnt) :
    ∃ m2 : MapS V, mapInsertOp m k v = (.ok m.next, m2) ∧
      MapShape m2 ∧ (∃ j2 : Nat, m2.sz = 10 * 2 ^ j2) ∧
      (allPairsM m2).Perm ((k, m.next) :: allPairsM m) ∧
      m2.cnt = m.cnt + 1 ∧ m2.next = m.next + 1 ∧ m2.heap = m.heap ++ [v] ∧
      4 * m2.cnt < 3 * m2.sz ∧ (m2.sz = 10 ∨ m2.sz < 4 * m2.cnt) ∧
      (m2.sz ≠ m.sz → m2.sz < 4 * m2.cnt ∧ 4 * m2.cnt < 3 * m2.sz) := by
  have hszpos := hsh.2.1
  have hrange := hashF_range k hszpos
  have hidx : (hashF m.sz k).toNat < m.buckets.length := by
    rw [hsh.1]
    omega
  have hidxi : ((hashF m.sz k).toNat : Int) = hashF m.sz k :=
    Int.toNat_of_nonneg hrange.1
  have hknotin : k ∉ keysOf (bucketAt m ((hashF m.sz k).toNat)).root := by
    intro hmem
    have hsome := findNode_isSome_of_mem (bucketAt_wf hsh _).1 hmem
    rw [mapContains] at hc
    rw [hsome] at hc
    exact absurd hc (by decide)
  have hbwf := bucketAt_wf hsh ((hashF m.sz k).toNat)
  obtain ⟨hok, hio⟩ :=
    treeInsert_ok_inorder (bucketAt m ((hashF m.sz k).toNat)) k m.next hbwf hknotin
  have hbwf2 := treeInsert_wf (bucketAt m ((hashF m.sz k).toNat)) k m.next hbwf
  cases htio : treeInsertOp (bucketAt m ((hashF m.sz k).toNat)) k m.next with
  | mk r b2 =>
    rw [htio] at hok hio hbwf2
    simp only at hok hio hbwf2
    subst hok
    have hgd : (m.buckets.map fun b => inorder b.root).getD ((hashF m.sz k).toNat) [] =
        inorder (bucketAt m ((hashF m.sz k).toNat)).root :=
      getD_map_list _ m.buckets _ emptyTree
    have hpermx : (inorder b2.root).Perm
        ((k, m.next) :: (m.buckets.map fun b => inorder b.root).getD ((hashF m.sz k).toNat) []) := by
      rw [hio, hgd]
      exact insOrd_perm k m.next _
    have hperm1 : (allPairsM (⟨m.buckets.set ((hashF m.sz k).toNat) b2, m.sz,
          m.cnt + 1, m.next + 1, m.heap ++ [v]⟩ : MapS V)).Perm
        ((k, m.next) :: allPairsM m) := by
      show (((m.buckets.set ((hashF m.sz k).toNat) b2).map fun b => inorder b.root).flatten).Perm _
      rw [List.map_set]
      exact flatten_set_perm _ _ _ _ (by simpa using hidx) hpermx
    have hsh1 : MapShape (⟨m.buckets.set ((hashF m.sz k).toNat) b2, m.sz,
        m.cnt + 1, m.next + 1, m.heap ++ [v]⟩ : MapS V) := by
      refine ⟨?_, hszpos, ?_, ?_, ?_⟩
      · show (m.buckets.set _ _).length = _
        rw [List.length_set]
        exact hsh.1
      · show m.cnt + 1 = _
        have hlen1 := hperm1.length_eq
        have hcntm := hsh.2.2.1
        simp only [List.length_cons] at hlen1
        rw [hlen1]
        omega
      · intro b hb
        rcases List.mem_or_eq_of_mem_set hb with hb2 | hb2
        · exact hsh.2.2.2.1 b hb2
        · rw [hb2]
          exact hbwf2
      · intro i hi pr hpr
        have hi2 : i < m.buckets.length := by
          simpa using hi
        show hashF m.sz pr.1 = _
        by_cases hieq : i = (hashF m.sz k).toNat
        · subst hieq
          have hpr2 : pr ∈ inorder b2.root := by
            have hpr3 : pr ∈ inorder ((m.buckets.set ((hashF m.sz k).toNat) b2).getD
                ((hashF m.sz k).toNat) emptyTree).root := hpr
            rwa [getD_set_self _ _ _ _ hidx] at hpr3
          have hpr3 := hpermx.mem_iff.mp hpr2
          rcases List.mem_cons.mp hpr3 with rfl | hpr4
          · rw [hidxi]
          · rw [hgd] at hpr4
            exact hsh.2.2.2.2 _ hidx pr hpr4
        · have hpr2 : pr ∈ inorder (m.buckets.getD i emptyTree).root := by
            have hpr3 : pr ∈ inorder ((m.buckets.set ((hashF m.sz k).toNat) b2).getD
                i emptyTree).root := hpr
            rwa [getD_set_ne _ _ _ _ _ (fun hh => hieq hh.symm)] at hpr3
          exact hsh.2.2.2.2 i hi2 pr hpr2
    obtain ⟨j, hj⟩ := hcap
    obtain ⟨m2, hok2, hsh2, hcap2, hperm2, hcnt2, hnext2, hheap2, hb1, hb2x, hstrict⟩ :=
      loadCheck_spec (⟨m.buckets.set ((hashF m.sz k).toNat) b2, m.sz,
          m.cnt + 1, m.next + 1, m.heap ++ [v]⟩ : MapS V) hsh1 ⟨j, hj⟩
        (by show 4 * (m.cnt + 1) < 3 * m.sz + 4; omega)
        (by
          show m.sz = 10 ∨ m.sz < 4 * (m.cnt + 1) + 4
          rcases hband2 with h | h
          · exact Or.inl h
          · exact Or.inr (by omega))
    refine ⟨m2, ?_, hsh2, hcap2, hperm2.trans hperm1, by rw [hcnt2], by rw [hnext2],
      by rw [hheap2], hb1, hb2x, hstrict⟩
    simp only [mapInsertOp, hc, Bool.false_eq_true, if_false, bucketAt]
    rw [show (⟨m.buckets, m.sz, m.cnt, m.next + 1, m.heap ++ [v]⟩ : MapS V).buckets.getD
        ((hashF (⟨m.buckets, m.sz, m.cnt, m.next + 1, m.heap ++ [v]⟩ : MapS V).sz k).toNat)
        emptyTree = bucketAt m ((hashF m.sz k).toNat) from rfl]
    rw [htio]
    simp only [hok2]

/-- `HashMap::Delete` of a present key on a well-formed map: it succeeds,
removes exactly the one stored (key, pointer) pair, decrements the count,
allocates nothing, and the post-resize-check state is well-formed with the
counters back in the steady-state band. -/
theorem mapDelete_ok (m : MapS V) (k : Int) (hsh : MapShape m)
    (hc : mapContains m k = true)
    (hcap : ∃ j : Nat, m.sz = 10 * 2 ^ j)
    (hband1 : 4 * m.cnt < 3 * m.sz)
    (hband2 : m.sz = 10 ∨ m.sz < 4 * m.cnt) :
    ∃ (m2 : MapS V) (p : Nat), mapDeleteOp m k = (.ok (), m2) ∧
      MapShape m2 ∧ (∃ j2 : Nat, m2.sz = 10 * 2 ^ j2) ∧
      (k, p) ∈ allPairsM m ∧
      ((k, p) :: allPairsM m2).Perm (allPairsM m) ∧
      m2.cnt = m.cnt - 1 ∧ m2.next = m.next ∧ m2.heap = m.heap ∧
      4 * m2.cnt < 3 * m2.sz ∧ (m2.sz = 10 ∨ m2.sz < 4 * m2.cnt) ∧
      (m2.sz ≠ m.sz → m2.sz < 4 * m2.cnt ∧ 4 * m2.cnt < 3 * m2.sz) := by
  have hszpos := hsh.2.1
  have hrange := hashF_range k hszpos
  have hidx : (hashF m.sz k).toNat < m.buckets.length := by
    rw [hsh.1]
    omega
  have hbwf := bucketAt_wf hsh ((hashF m.sz k).toNat)
  have hkin : k ∈ keysOf (bucketAt m ((hashF m.sz k).toNat)).root := by
    rw [mapContains] at hc
    obtain ⟨n, hn⟩ := Option.isSome_iff_exists.mp hc
    exact mem_of_findNode_some hn
  obtain ⟨hok, hio, hsz⟩ :=
    treeDelete_ok_inorder (bucketAt m ((hashF m.sz k).toNat)) k hbwf hkin
  have hbwf2 := treeDelete_wf (bucketAt m ((hashF m.sz k).toNat)) k hbwf
  cases htd : treeDeleteOp (bucketAt m ((hashF m.sz k).toNat)) k with
  | mk r b2 =>
    rw [htd] at hok hio hbwf2
    simp only at hok hio hbwf2
    subst hok
    obtain ⟨p, hpmem, hbperm⟩ :=
      eraseKey_perm_of_mem k (inorder (bucketAt m ((hashF m.sz k).toNat)).root) hkin
    have hgd : (m.buckets.map fun b => inorder b.root).getD ((hashF m.sz k).toNat) [] =
        inorder (bucketAt m ((hashF m.sz k).toNat)).root :=
      getD_map_list _ m.buckets _ emptyTree
    have hpermx : ((m.buckets.map fun b => inorder b.root).getD ((hashF m.sz k).toNat) []).Perm
        ((k, p) :: inorder b2.root) := by
      rw [hgd, hio]
      exact hbperm
    have hperm1 : ((k, p) :: allPairsM (⟨m.buckets.set ((hashF m.sz k).toNat) b2, m.sz,
          m.cnt - 1, m.next, m.heap⟩ : MapS V)).Perm (allPairsM m) := by
      show ((k, p) :: ((m.buckets.set ((hashF m.sz k).toNat) b2).map
          fun b => inorder b.root).flatten).Perm _
      rw [List.map_set]
      exact flatten_set_perm_del _ _ _ _ (by simpa using hidx) hpermx
    have hsh1 : MapShape (⟨m.buckets.set ((hashF m.sz k).toNat) b2, m.sz,
        m.cnt - 1, m.next, m.heap⟩ : MapS V) := by
      refine ⟨?_, hszpos, ?_, ?_, ?_⟩
      · show (m.buckets.set _ _).length = _
        rw [List.length_set]
        exact hsh.1
      · show m.cnt - 1 = _
        have hlen1 := hperm1.length_eq
        have hcntm := hsh.2.2.1
        simp only [List.length_cons] at hlen1
        omega
      · intro b hb
        rcases List.mem_or_eq_of_mem_set hb with hb2 | hb2
        · exact hsh.2.2.2.1 b hb2
        · rw [hb2]
          exact hbwf2
      · intro i hi pr hpr
        have hi2 : i < m.buckets.length := by
          simpa using hi
        show hashF m.sz pr.1 = _
        by_cases hieq : i = (hashF m.sz k).toNat
        · subst hieq
          have hpr2 : pr ∈ inorder b2.root := by
            have hpr3 : pr ∈ inorder ((m.buckets.set ((hashF m.sz k).toNat) b2).getD
                ((hashF m.sz k).toNat) emptyTree).root := hpr
            rwa [getD_set_self _ _ _ _ hidx] at hpr3
          have hpr4 : pr ∈ inorder (bucketAt m ((hashF m.sz k).toNat)).root := by
            rw [hio] at hpr2
            exact (eraseKey_sublist k _).mem hpr2
          exact hsh.2.2.2.2 _ hidx pr hpr4
        · have hpr2 : pr ∈ inorder (m.buckets.getD i emptyTree).root := by
            have hpr3 : pr ∈ inorder ((m.buckets.set ((hashF m.sz k).toNat) b2).getD
                i emptyTree).root := hpr
            rwa [getD_set_ne _ _ _ _ _ (fun hh => hieq hh.symm)] at hpr3
          exact hsh.2.2.2.2 i hi2 pr hpr2
    obtain ⟨j, hj⟩ := hcap
    obtain ⟨m2, hok2, hsh2, hcap2, hperm2, hcnt2, hnext2, hheap2, hb1, hb2x, hstrict⟩ :=
      loadCheck_spec (⟨m.buckets.set ((hashF m.sz k).toNat) b2, m.sz,
          m.cnt - 1, m.next, m.heap⟩ : MapS V) hsh1 ⟨j, hj⟩
        (by show 4 * (m.cnt - 1) < 3 * m.sz + 4; omega)
        (by
          show m.sz = 10 ∨ m.sz < 4 * (m.cnt - 1) + 4
          rcases hband2 with h | h
          · exact Or.inl h
          · exact Or.inr (by omega))
    refine ⟨m2, p, ?_, hsh2, hcap2, ?_, (hperm2.cons (k, p)).trans hperm1,
      by rw [hcnt2], by rw [hnext2], by rw [hheap2], hb1, hb2x, hstrict⟩
    · simp only [mapDeleteOp, hc, Bool.true_eq_false, if_false, bucketAt]
      rw [show m.buckets.getD ((hashF m.sz k).toNat) emptyTree =
          bucketAt m ((hashF m.sz k).toNat) from rfl]
      rw [htd]
      simp only [hok2]
    · exact bucket_mem_allPairs hidx hpmem

/-- The freshly constructed map is structurally well-formed. -/
theorem mapInit_shape : MapShape (mapInit : MapS V) := by
  refine ⟨rfl, (by decide : (0 : Int) < 10), ?_, ?_, ?_⟩
  · rfl
  · intro b hb
    rw [List.eq_of_mem_replicate hb]
    exact emptyTree_wf
  · intro i hi pr hpr
    have hi2 : i < 10 := by simpa using hi
    have hpr2 : pr ∈ ([] : List (Int × Nat)) := by
      have hb : bucketAt (mapInit : MapS V) i = emptyTree := by
        show (List.replicate 10 emptyTree).getD i emptyTree = emptyTree
        rw [List.getD_eq_getElem _ _ (by simpa using hi2), List.getElem_replicate]
      rw [hb] at hpr
      exact hpr
    simp at hpr2

/-- The freshly constructed map is fully well-formed. -/
theorem mapInit_wf : MapWF (mapInit : MapS V) := by
  refine ⟨mapInit_shape, ⟨0, (by decide : (10 : Int) = 10 * 2 ^ 0)⟩, ?_, rfl,
    (by decide : 4 * (0 : Int) < 3 * 10), Or.inl rfl⟩
  intro pr hpr
  have hpr2 : pr ∈ ([] : List (Int × Nat)) := hpr
  simp at hpr2

/-- `HashMap::Insert` preserves full well-formedness, and whenever it changed
the capacity the load factor lands strictly inside (1/4, 3/4). -/
theorem mapInsert_wf (m : MapS V) (k : Int) (v : V) (hwf : MapWF m) :
    MapWF (mapInsertOp m k v).2 ∧
    ((mapInsertOp m k v).2.sz ≠ m.sz →
       (mapInsertOp m k v).2.sz < 4 * (mapInsertOp m k v).2.cnt ∧
       4 * (mapInsertOp m k v).2.cnt < 3 * (mapInsertOp m k v).2.sz) := by
  obtain ⟨hsh, hcap, hptr, hheap, hband1, hband2⟩ := hwf
  by_cases hc : mapContains m k = true
  · rw [mapInsert_err m k v hc]
    exact ⟨⟨hsh, hcap, hptr, hheap, hband1, hband2⟩, fun h => absurd rfl h⟩
  · have hc' : mapContains m k = false := by simpa using hc
    obtain ⟨m2, heq, hsh2, hcap2, hperm2, hcnt2, hnext2, hheap2, hb1, hb2, hstrict⟩ :=
      mapInsert_ok m k v hsh hc' hcap hband1 hband2
    rw [heq]
    refine ⟨⟨hsh2, hcap2, ?_, ?_, hb1, hb2⟩, hstrict⟩
    · intro pr hpr
      have hpr2 := hperm2.mem_iff.mp hpr
      show pr.2 < m2.next
      rw [hnext2]
      rcases List.mem_cons.mp hpr2 with rfl | hpr3
      · omega
      · have := hptr pr hpr3
        omega
    · show m2.heap.length = m2.next
      rw [hheap2, List.length_append, hheap, hnext2]
      rfl

/-- `HashMap::Delete` preserves full well-formedness, and whenever it changed
the capacity the load factor lands strictly inside (1/4, 3/4). -/
theorem mapDelete_wf (m : MapS V) (k : Int) (hwf : MapWF m) :
    MapWF (mapDeleteOp m k).2 ∧
    ((mapDeleteOp m k).2.sz ≠ m.sz →
       (mapDeleteOp m k).2.sz < 4 * (mapDeleteOp m k).2.cnt ∧
       4 * (mapDeleteOp m k).2.cnt < 3 * (mapDeleteOp m k).2.sz) := by
  obtain ⟨hsh, hcap, hptr, hheap, hband1, hband2⟩ := hwf
  by_cases hc : mapContains m k = true
  · obtain ⟨m2, p, heq, hsh2, hcap2, hpm, hperm2, hcnt2, hnext2, hheap2, hb1, hb2, hstrict⟩ :=
      mapDelete_ok m k hsh hc hcap hband1 hband2
    rw [heq]
    refine ⟨⟨hsh2, hcap2, ?_, ?_, hb1, hb2⟩, hstrict⟩
    · intro pr hpr
      show pr.2 < m2.next
      rw [hnext2]
      exact hptr pr (hperm2.mem_iff.mp (List.mem_cons_of_mem _ hpr))
    · show m2.heap.length = m2.next
      rw [hheap2, hnext2]
      exact hheap
  · have hc' : mapContains m k = false := by simpa using hc
    rw [mapDelete_err m k hc']
    exact ⟨⟨hsh, hcap, hptr, hheap, hband1, hband2⟩, fun h => absurd rfl h⟩

/-- Every reachable map state is fully well-formed. -/
theorem reachable_wf (m : MapS V) (hr : ReachableM m) : MapWF m := by
  induction hr with
  | init => exact mapInit_wf
  | ins m0 k v _ ih => exact (mapInsert_wf m0 k v ih).1
  | del m0 k _ ih => exact (mapDelete_wf m0 k ih).1

theorem getD_append_length {α : Type} (x d : α) :
    ∀ l : List α, (l ++ [x]).getD l.length d = x
  | [] => rfl
  | _ :: l => getD_append_length x d l

/-- Claim C1 — code_bug evidence.  Inserting the keys 4, 2, 6, 1, 3, 0 into an
empty tree through the public `Insert` leaves a tree in which some node's true
(recomputed) left and right subtree heights differ by 2: the tree is not
height-balanced after a public mutation, contradicting the claimed invariant.
The cause is `recursiveInsert` refreshing the right cached height after
recursing into the left child of a full node (avltree.hpp line 478), so the
stale left cached height masks the imbalance from `rotate`. -/
theorem C1_insert_breaks_true_balance :
    trueBalancedB (insertList [4, 2, 6, 1, 3, 0]).root = false := by decide

/-- Claim C2 — code_bug evidence.  After inserting 4, 2, 6, 1 (the last insert
recursing into the left child of the full root), the root's cached left
height no longer equals the recomputed true height of its left subtree:
the traversed side's cache is not refreshed on return, because
`recursiveInsert` calls `updateRightHeight()` on that path. -/
theorem C2_stale_cached_height :
    heightsAccurateB (insertList [4, 2, 6, 1]).root = false ∧
    heightsAccurateB (insertList [4, 2, 6]).root = true := by decide

/-- Claim C3 — confirmed.  For every sequence of `Insert` and `Delete`
operations applied to an initially empty tree (failed operations signal and
leave the state untouched), after each operation the in-order traversal
yields strictly ascending keys and `getSize` equals the traversal length.
Quantifying over all operation sequences covers the state after every prefix,
i.e. after each individual operation. -/
theorem C3_inorder_sorted_size (V : Type) (ops : List (TreeOp V)) :
    List.Sorted (· < ·) (keysOf (runTreeOps ops).root) ∧
    getSize (runTreeOps ops) = ((inorder (runTreeOps ops).root).length : Int) :=
  ⟨(runTreeOps_wf ops).1, (runTreeOps_wf ops).2⟩

/-- Claim C7 — counterexample.  On an iterator standing at a node whose left
child is missing, `MoveLeft` does NOT signal `IteratorPastEnd` at that move:
it succeeds, silently producing a handle whose current node is null.  The
signal only comes from a later operation on that handle. -/
theorem C7_cex_moveleft_missing_child_is_silent :
    moveLeftIt ⟨NodeT.node .nil 1 (0 : Int) 0 0 .nil, []⟩ =
      .ok ⟨NodeT.nil, [⟨true, 1, 0, 0, 0, NodeT.nil⟩]⟩ := rfl

/-- Claim C7 — amended.  Moving to a missing child succeeds silently and
yields a past-end handle (null current); every subsequent move or dereference
on a past-end handle signals `IteratorPastEnd`; moving to the parent from the
root (non-null current, no parent) signals the distinct `IteratorAtRoot`. -/
theorem C7_amended_iterator_signals (it : TIter V) :
    (it.cur = .nil →
      moveLeftIt it = .error .pastEnd ∧ moveRightIt it = .error .pastEnd ∧
      moveToParentIt it = .error .pastEnd ∧ derefIt it = .error .pastEnd) ∧
    (∀ l k v lh rh r, it.cur = .node l k v lh rh r →
      moveLeftIt it = .ok ⟨l, ⟨true, k, v, lh, rh, r⟩ :: it.up⟩ ∧
      moveRightIt it = .ok ⟨r, ⟨false, k, v, lh, rh, l⟩ :: it.up⟩ ∧
      (it.up = [] → moveToParentIt it = .error .atRoot)) := by
  obtain ⟨cur, up⟩ := it
  constructor
  · intro h
    subst h
    simp [moveLeftIt, moveRightIt, moveToParentIt, derefIt]
  · intro l k v lh rh r h
    subst h
    refine ⟨rfl, rfl, ?_⟩
    intro h2
    subst h2
    simp [moveToParentIt]

/-- Witness for the amended C7 theorem at concrete iterators: a past-end
handle signals `IteratorPastEnd` on a further move, and the root signals
`IteratorAtRoot` on `moveToParent`. -/
theorem C7_amended_iterator_signals_witness :
    moveLeftIt (⟨NodeT.nil, []⟩ : TIter Int) = .error .pastEnd ∧
    moveToParentIt (⟨NodeT.node .nil 2 (5 : Int) 0 0 .nil, []⟩ : TIter Int) =
      .error .atRoot :=
  ⟨((C7_amended_iterator_signals ⟨NodeT.nil, []⟩).1 rfl).1,
   ((C7_amended_iterator_signals ⟨NodeT.node .nil 2 (5 : Int) 0 0 .nil, []⟩).2
      NodeT.nil 2 5 0 0 NodeT.nil rfl).2.2 rfl⟩

/-- Claim C5 — confirmed.  On every reachable map state the capacity is at
least the initial floor 10; `loadFactorCheckAndResize` grows (doubling)
exactly when `count/capacity ≥ 3/4`, shrinks (halving) exactly when
`count/capacity ≤ 1/4`, a shrink at capacity 10 is a no-op; and whenever an
insert or a delete actually changed the capacity, the resulting load factor
lies strictly between 1/4 and 3/4. -/
theorem C5_load_factor_policy (V : Type) (m : MapS V) (hr : ReachableM m) :
    10 ≤ m.sz ∧
    (∀ m1 : MapS V, loadCheck m1 =
        (if 3 * m1.sz ≤ 4 * m1.cnt then mapResize m1 true
         else if 4 * m1.cnt ≤ m1.sz then mapResize m1 false
         else .ok m1)) ∧
    (∀ m1 : MapS V, m1.sz = 10 → mapResize m1 false = .ok m1) ∧
    (∀ (k : Int) (v : V), (mapInsertOp m k v).2.sz ≠ m.sz →
       (mapInsertOp m k v).2.sz < 4 * (mapInsertOp m k v).2.cnt ∧
       4 * (mapInsertOp m k v).2.cnt < 3 * (mapInsertOp m k v).2.sz) ∧
    (∀ k : Int, (mapDeleteOp m k).2.sz ≠ m.sz →
       (mapDeleteOp m k).2.sz < 4 * (mapDeleteOp m k).2.cnt ∧
       4 * (mapDeleteOp m k).2.cnt < 3 * (mapDeleteOp m k).2.sz) := by
  have hwf := reachable_wf m hr
  obtain ⟨j, hj⟩ := hwf.2.1
  refine ⟨?_, fun m1 => rfl, ?_, ?_, ?_⟩
  · have h2j : (0 : Int) < 2 ^ j := by positivity
    rw [hj]
    omega
  · intro m1 h10
    rw [mapResize, if_pos ⟨rfl, h10⟩]
  · intro k v
    exact (mapInsert_wf m k v hwf).2
  · intro k
    exact (mapDelete_wf m k hwf).2

theorem C5_load_factor_policy_witness :
    ReachableM (mapInit : MapS Nat) ∧ 10 ≤ (mapInit : MapS Nat).sz :=
  ⟨ReachableM.init, (C5_load_factor_policy Nat mapInit ReachableM.init).1⟩

/-- Claim C6 — confirmed (with the drain step modelled from the spec, since
`inOrderExtractKeys`/`inOrderExtractData` are absent from the sources).  A
resize of a structurally well-formed map succeeds and holds exactly the
original (key, pointer) pairs up to order; every pair sits in the bucket
selected by its hash against the new capacity; and no heap cell is allocated
or copied — the payload pointers and the heap are unchanged. -/
theorem C6_resize_preserves_pairs (V : Type) (m : MapS V) (inc : Bool)
    (hsh : MapShape m) (hcap : ∃ j : Nat, m.sz = 10 * 2 ^ j) :
    ∃ m2 : MapS V, mapResize m inc = .ok m2 ∧
      (allPairsM m2).Perm (allPairsM m) ∧
      (∀ i, i < m2.buckets.length →
        ∀ pr ∈ inorder (bucketAt m2 i).root, hashF m2.sz pr.1 = (i : Int)) ∧
      m2.next = m.next ∧ m2.heap = m.heap := by
  obtain ⟨m2, hok, hsh2, _, hperm, _, hnext, hheap, _, _, _⟩ :=
    mapResize_spec m inc hsh hcap
  exact ⟨m2, hok, hperm, hsh2.2.2.2.2, hnext, hheap⟩

theorem C6_resize_preserves_pairs_witness :
    MapShape (mapInit : MapS Nat) ∧
    (∃ m2 : MapS Nat, mapResize (mapInit : MapS Nat) true = .ok m2 ∧
      (allPairsM m2).Perm (allPairsM (mapInit : MapS Nat)) ∧
      (∀ i, i < m2.buckets.length →
        ∀ pr ∈ inorder (bucketAt m2 i).root, hashF m2.sz pr.1 = (i : Int)) ∧
      m2.next = (mapInit : MapS Nat).next ∧ m2.heap = (mapInit : MapS Nat).heap) :=
  ⟨mapInit_shape, C6_resize_preserves_pairs Nat mapInit true mapInit_shape
    ⟨0, (by decide : (10 : Int) = 10 * 2 ^ 0)⟩⟩

/-- Claim C8 — confirmed.  Inserting a present key signals KeyAlreadyExists,
deleting or finding an absent key signals KeyNotFound, on the tree and on the
map alike, and in every such error case the returned container state is
exactly the state before the call. -/
theorem C8_error_paths_preserve_state (V : Type) [Inhabited V]
    (t : TreeS V) (m : MapS V) (k : Int) (v : V) (hwf : TreeWF t) :
    (k ∈ keysOf t.root → treeInsertOp t k v = (.error .keyAlreadyExists, t)) ∧
    (k ∉ keysOf t.root → treeDeleteOp t k = (.error .keyNotFound, t)) ∧
    (k ∉ keysOf t.root → treeFind t k = .error .keyNotFound) ∧
    (mapContains m k = true → mapInsertOp m k v = (.error .keyAlreadyExists, m)) ∧
    (mapContains m k = false → mapDeleteOp m k = (.error .keyNotFound, m)) ∧
    (mapContains m k = false → mapFindE m k = .error .keyNotFound) := by
  refine ⟨fun hm => treeInsert_err_of_mem t k v hwf hm,
    fun hm => treeDelete_err_of_not_mem t k hm,
    fun hm => ?_,
    fun hc => mapInsert_err m k v hc,
    fun hc => mapDelete_err m k hc,
    fun hc => ?_⟩
  · rw [treeFind, findNode_none_of_not_mem hm]
  · rw [mapFindE, if_pos hc]

theorem C8_error_paths_preserve_state_witness :
    TreeWF (⟨.node .nil 1 0 0 0 .nil, 1⟩ : TreeS Nat) ∧
    ((1 : Int) ∈ keysOf (⟨.node .nil 1 0 0 0 .nil, 1⟩ : TreeS Nat).root →
      treeInsertOp (⟨.node .nil 1 0 0 0 .nil, 1⟩ : TreeS Nat) 1 0 =
        (.error .keyAlreadyExists, (⟨.node .nil 1 0 0 0 .nil, 1⟩ : TreeS Nat))) :=
  ⟨⟨List.sorted_singleton 1, rfl⟩,
   (C8_error_paths_preserve_state Nat (⟨.node .nil 1 0 0 0 .nil, 1⟩ : TreeS Nat)
      mapInit 1 0 ⟨List.sorted_singleton 1, rfl⟩).1⟩

/-- Claim C10 — confirmed.  On a well-formed map, inserting a fresh key
returns the next allocation id: the heap gains exactly one new cell holding a
copy of the caller's value at that id, no previously stored pair points at
that id, and the very same id is what gets stored in the bucket tree — the
map never stores or aliases the caller's argument object. -/
theorem C10_insert_allocates_fresh (V : Type) [Inhabited V] (m : MapS V)
    (k : Int) (v : V) (hwf : MapWF m) (hc : mapContains m k = false) :
    ∃ p : Nat, (mapInsertOp m k v).1 = .ok p ∧
      p = m.next ∧
      m.heap.length = p ∧
      (∀ pr ∈ allPairsM m, pr.2 ≠ p) ∧
      (mapInsertOp m k v).2.heap = m.heap ++ [v] ∧
      (mapInsertOp m k v).2.heap.getD p default = v ∧
      (k, p) ∈ allPairsM (mapInsertOp m k v).2 := by
  obtain ⟨hsh, hcap, hptr, hheap, hband1, hband2⟩ := hwf
  obtain ⟨m2, heq, hsh2, hcap2, hperm2, hcnt2, hnext2, hheap2, _, _, _⟩ :=
    mapInsert_ok m k v hsh hc hcap hband1 hband2
  refine ⟨m.next, ?_, rfl, hheap, ?_, ?_, ?_, ?_⟩
  · rw [heq]
  · intro pr hpr
    have := hptr pr hpr
    omega
  · rw [heq]
    exact hheap2
  · rw [heq]
    show m2.heap.getD m.next default = v
    rw [hheap2, ← hheap]
    exact getD_append_length v default m.heap
  · rw [heq]
    show (k, m.next) ∈ allPairsM m2
    exact hperm2.mem_iff.mpr (List.mem_cons_self _ _)

theorem C10_insert_allocates_fresh_witness :
    MapWF (mapInit : MapS Nat) ∧
    mapContains (mapInit : MapS Nat) 0 = false ∧
    (∃ p : Nat, (mapInsertOp (mapInit : MapS Nat) 0 42).1 = .ok p ∧
      p = (mapInit : MapS Nat).next) :=
  ⟨mapInit_wf, rfl,
   (C10_insert_allocates_fresh Nat mapInit 0 42 mapInit_wf rfl).elim
     fun p hp => ⟨p, hp.1, hp.2.1⟩⟩

end DS
